import Mathlib

/-!
Verification of the astro-and-robots puzzle core: state model, sliding
movement resolver, BFS solver, randomized generator pipeline, layout
parsing, position diffs, and the walkthrough navigator, embedded from
the Rust sources (src/state.rs, src/game/solver.rs, src/game/mod.rs).
-/

set_option maxHeartbeats 1000000

/-- Board position, a pair of non-negative coordinates (src/state.rs, Pos). -/
structure Pos where
  x : Nat
  y : Nat
deriving DecidableEq, Repr

/-- Tile classification of a board cell (src/state.rs, Tile). -/
inductive Tile where
  | Empty
  | Astro
  | Robot
  | Goal
deriving DecidableEq, Repr

/-- Sliding direction (src/state.rs, Direction). -/
inductive Direction where
  | Up
  | Down
  | Left
  | Right
deriving DecidableEq, Repr

/-- Outcome of a movement attempt (src/state.rs, MovementAttempt). -/
inductive MovementAttempt where
  | Success (pos : Pos)
  | Failure
deriving DecidableEq, Repr

/-- Actor selection: the astronaut or the robot at an index (src/state.rs, Selection). -/
inductive Selection where
  | Astro
  | Robot (n : Nat)
deriving DecidableEq, Repr

/-- Fixed per-puzzle parameters (src/state.rs, Invariants). -/
structure Invariants where
  goal : Pos
  rows : Nat
  cols : Nat
deriving DecidableEq, Repr

/-- Puzzle state: astronaut position, ordered robot positions, shared
invariants (src/state.rs, State). -/
structure State where
  astro : Pos
  robots : List Pos
  invariants : Invariants
deriving DecidableEq, Repr

/-- Goal test: the astronaut stands on the goal cell (src/state.rs, is_at_goal). -/
def State.is_at_goal (s : State) : Bool :=
  decide (s.astro = s.invariants.goal)

/-- Derived tile view of a cell, astronaut and robots drawing over the goal
(src/state.rs, tile_at). -/
def State.tile_at (s : State) (pos : Pos) : Tile :=
  if s.astro = pos then Tile.Astro
  else if pos ∈ s.robots then Tile.Robot
  else if s.invariants.goal = pos then Tile.Goal
  else Tile.Empty

/-- Position of the selected actor (src/state.rs, pos_of); Rust indexes the
robot vector, whose bound is a caller-maintained precondition. -/
def State.pos_of (s : State) : Selection → Pos
  | Selection.Astro => s.astro
  | Selection.Robot n => s.robots.getD n ⟨0, 0⟩

/-- Write the selected actor's position (src/state.rs, pos_of_mut plus the
assignment done by its callers). -/
def State.set_pos (s : State) : Selection → Pos → State
  | Selection.Astro, p => { s with astro := p }
  | Selection.Robot n, p => { s with robots := s.robots.set n p }

/-- Cells scanned by a slide, from the cell adjacent to the start toward the
board edge (src/state.rs, positions_in_path). -/
def State.positions_in_path (s : State) (path_start : Pos) :
    Direction → List Pos
  | Direction.Up =>
      (List.range path_start.y).reverse.map (fun y => ⟨path_start.x, y⟩)
  | Direction.Down =>
      (List.range' (path_start.y + 1)
        (s.invariants.rows - (path_start.y + 1))).map (fun y => ⟨path_start.x, y⟩)
  | Direction.Left =>
      (List.range path_start.x).reverse.map (fun x => ⟨x, path_start.y⟩)
  | Direction.Right =>
      (List.range' (path_start.x + 1)
        (s.invariants.cols - (path_start.x + 1))).map (fun x => ⟨x, path_start.y⟩)

/-- The scan loop of move_toward over the remaining path, with the peek at
the following cell (src/state.rs, move_toward's loop). -/
def State.moveLoop (s : State) : List Pos → MovementAttempt
  | [] => MovementAttempt.Failure
  | pos :: rest =>
    match s.tile_at pos with
    | Tile.Robot | Tile.Astro => MovementAttempt.Failure
    | Tile.Empty | Tile.Goal =>
      match rest.head? with
      | some next =>
        match s.tile_at next with
        | Tile.Robot | Tile.Astro => MovementAttempt.Success pos
        | Tile.Empty | Tile.Goal => s.moveLoop rest
      | none => s.moveLoop rest

/-- Resolve one slide of the actor at current_pos (src/state.rs, move_toward). -/
def State.move_toward (s : State) (current_pos : Pos) (direction : Direction) :
    MovementAttempt :=
  s.moveLoop (s.positions_in_path current_pos direction)

/-- Successor states produced by sliding one selected actor in each of the
four directions, Failures pruned (src/game/solver.rs, successor_of). -/
def State.successor_of (s : State) (selection : Selection) : List State :=
  [Direction.Up, Direction.Down, Direction.Left, Direction.Right].filterMap
    (fun direction =>
      match s.move_toward (s.pos_of selection) direction with
      | MovementAttempt.Success new_pos => some (s.set_pos selection new_pos)
      | MovementAttempt.Failure => none)

/-- All successor states: astronaut first, then each robot in index order
(src/game/solver.rs, all_successors). -/
def State.all_successors (s : State) : List State :=
  (Selection.Astro :: (List.range s.robots.length).map Selection.Robot).flatMap
    s.successor_of

/-- Record one fresh successor path per unseen successor state, in successor
order; part of the breadth-first expansion. Modelled from the spec:
the `bfs` function of the external `pathfinding` crate called by
solve_from_here is not part of this repository; the spec describes it as
breadth-first search in first-in-first-out order with a visited set keyed
by state equality. Paths are kept reversed (head is the newest state). -/
def addSuccs (seen : List State) (p : List State) :
    List State → List (List State) × List State
  | [] => ([], seen)
  | s :: rest =>
    if s ∈ seen then addSuccs seen p rest
    else
      let r := addSuccs (seen ++ [s]) p rest
      ((s :: p) :: r.1, r.2)

/-- Modelled from the spec: expand one breadth-first level, visiting each
frontier path in first-in-first-out order and collecting the unseen
successors of its head. -/
def expandLevel (succs : State → List State) (seen : List State) :
    List (List State) → List (List State) × List State
  | [] => ([], seen)
  | p :: ps =>
    match p with
    | [] => expandLevel succs seen ps
    | c :: _ =>
      let r1 := addSuccs seen p (succs c)
      let r2 := expandLevel succs r1.2 ps
      (r1.1 ++ r2.1, r2.2)

/-- Modelled from the spec: level-by-level breadth-first search; at each
level, return the first path whose head satisfies the goal test, otherwise
expand the frontier; stop with none when the frontier is exhausted. The
fuel bounds the number of levels and is chosen larger than the number of
distinct reachable states. -/
def bfsAux (succs : State → List State) (goal : State → Bool) :
    Nat → List (List State) → List State → Option (List State)
  | 0, _, _ => none
  | fuel + 1, frontier, visited =>
    match frontier.find? (fun p =>
        match p with
        | c :: _ => goal c
        | [] => false) with
    | some p => some p.reverse
    | none =>
      let r := expandLevel succs visited frontier
      if r.1.isEmpty then none
      else bfsAux succs goal fuel r.1 r.2

/-- Modelled from the spec: breadth-first search from a start state,
returning a shortest path (inclusive of start and end) to a goal state. -/
def bfs (succs : State → List State) (goal : State → Bool) (start : State)
    (fuel : Nat) : Option (List State) :=
  bfsAux succs goal fuel [[start]] [start]

/-- Strict upper bound on every coordinate of every state reachable from s:
larger than the board dimensions and every coordinate of s's actors. -/
def State.coordBound (s : State) : Nat :=
  max (max s.invariants.rows s.invariants.cols)
    (s.robots.foldr (fun p acc => max (max p.x p.y + 1) acc)
      (max s.astro.x s.astro.y + 1))

/-- Upper bound on the number of distinct states reachable from s, used to
fuel the breadth-first search. -/
def State.numStatesBound (s : State) : Nat :=
  (s.coordBound * s.coordBound) ^ (s.robots.length + 1)

/-- Shortest solution path from here, or none (src/game/solver.rs,
solve_from_here; the external crate's bfs is modelled from the spec). -/
def State.solve_from_here (s : State) : Option (List State) :=
  bfs State.all_successors State.is_at_goal s (s.numStatesBound + 1)


/-- Rectangular board layout of per-cell tile labels, as handed to
from_grid by the CLI layer (the simple_grid crate's Grid of Tile; its
dimensions call returns the pair (columns, rows)). -/
structure TileGrid where
  cols : Nat
  rows : Nat
  tile : Nat → Nat → Tile

/-- Cell positions in the iteration order of from_grid: the cartesian
product of column indices with row indices (src/state.rs, from_grid). -/
def gridPositions (cols rows : Nat) : List Pos :=
  (List.range cols).flatMap (fun x => (List.range rows).map (fun y => ⟨x, y⟩))

/-- The accumulating pass of from_grid over all cells, rejecting a second
astronaut or goal as soon as it is seen (src/state.rs, from_grid's loop). -/
def scanTiles (g : TileGrid) :
    List Pos → Option Pos → Option Pos → List Pos →
    Except String (Option Pos × Option Pos × List Pos)
  | [], astro, goal, robots => Except.ok (astro, goal, robots)
  | p :: ps, astro, goal, robots =>
    match g.tile p.x p.y with
    | Tile.Empty => scanTiles g ps astro goal robots
    | Tile.Astro =>
      if astro.isSome then Except.error "more than one player"
      else scanTiles g ps (some p) goal robots
    | Tile.Robot => scanTiles g ps astro goal (robots ++ [p])
    | Tile.Goal =>
      if goal.isSome then Except.error "more than one goal"
      else scanTiles g ps astro (some p) robots

/-- Build the initial state from a board layout, requiring exactly one
astronaut and exactly one goal (src/state.rs, from_grid). -/
def State.from_grid (g : TileGrid) : Except String State :=
  match scanTiles g (gridPositions g.cols g.rows) none none [] with
  | Except.error e => Except.error e
  | Except.ok (astro?, goal?, robots) =>
    match astro? with
    | none => Except.error "no player"
    | some astro =>
      match goal? with
      | none => Except.error "no goal"
      | some goal =>
        Except.ok { astro := astro, robots := robots,
                    invariants := ⟨goal, g.rows, g.cols⟩ }

/-- The generator's validation pipeline (src/state.rs, new_randomized).
The WyRand random sampling is external nondeterminism; the stream of
sampled candidate states is abstracted as a function from the attempt
index, and the bounded retry loop, solvability filter, non-triviality
filter and the final swap_remove of the solution's initial state are
translated from the source. -/
def new_randomized_from (candidates : Nat → State) : Except String State :=
  match (List.range 5000).findSome? (fun i =>
      match (candidates i).solve_from_here with
      | some solution => if 5 ≤ solution.length then solution.head? else none
      | none => none) with
  | some st => Except.ok st
  | none => Except.error "all generated positions failed validation"

/-- Before/after pair of the one actor whose position changed
(src/state.rs, PosChange). -/
structure PosChange where
  fst : Pos
  snd : Pos
deriving DecidableEq, Repr

/-- First differing robot pair of two zipped robot lists (src/state.rs, the
zip/find_map step of TryFrom for PosChange). -/
def posChangeZipFind : List Pos → List Pos → Option PosChange
  | s_pos :: ss, t_pos :: ts =>
    if s_pos ≠ t_pos then some ⟨s_pos, t_pos⟩ else posChangeZipFind ss ts
  | _, _ => none

/-- Position-change diff of two states (src/state.rs, the TryFrom
implementation for PosChange). -/
def PosChange.try_from (s t : State) : Except String PosChange :=
  if s.invariants ≠ t.invariants then Except.error "state invariants differ"
  else if s.robots.length ≠ t.robots.length then
    Except.error "number of robots differs"
  else if s.astro ≠ t.astro then Except.ok ⟨s.astro, t.astro⟩
  else
    match posChangeZipFind s.robots t.robots with
    | some pc => Except.ok pc
    | none => Except.error "start and end states are equal"

/-- Cursor over a precomputed solution path (src/game/mod.rs,
SolutionWalkthrough). -/
structure SolutionWalkthrough where
  solution : List State
  current_step : Nat
deriving DecidableEq, Repr

/-- Fresh walkthrough with the cursor at the start (src/game/mod.rs,
SolutionWalkthrough::new). -/
def SolutionWalkthrough.new (solution : List State) : SolutionWalkthrough :=
  ⟨solution, 0⟩

/-- State under the cursor (src/game/mod.rs, SolutionWalkthrough::state;
the Rust indexing expectation is modelled as an Option). -/
def SolutionWalkthrough.state (w : SolutionWalkthrough) : Option State :=
  w.solution.get? w.current_step

/-- Length of the walkthrough solution (src/game/mod.rs,
SolutionWalkthrough::len). -/
def SolutionWalkthrough.len (w : SolutionWalkthrough) : Nat :=
  w.solution.length

/-- Move the cursor one step back, saturating at 0 (src/game/mod.rs,
SolutionWalkthrough::decrement). -/
def SolutionWalkthrough.decrement (w : SolutionWalkthrough) :
    SolutionWalkthrough :=
  if w.current_step > 0 then { w with current_step := w.current_step - 1 }
  else w

/-- Move the cursor one step forward, saturating at len - 1
(src/game/mod.rs, SolutionWalkthrough::increment). -/
def SolutionWalkthrough.increment (w : SolutionWalkthrough) :
    SolutionWalkthrough :=
  if w.current_step < w.len - 1 then { w with current_step := w.current_step + 1 }
  else w

/-- One user operation on the walkthrough cursor (src/game/mod.rs,
walkthrough_next and walkthrough_prev). -/
inductive WalkOp where
  | next
  | prev
deriving DecidableEq, Repr

/-- Apply one cursor operation. -/
def SolutionWalkthrough.applyOp (w : SolutionWalkthrough) : WalkOp → SolutionWalkthrough
  | WalkOp.next => w.increment
  | WalkOp.prev => w.decrement

/-- Apply a sequence of cursor operations in order. -/
def SolutionWalkthrough.applyOps (w : SolutionWalkthrough)
    (ops : List WalkOp) : SolutionWalkthrough :=
  ops.foldl SolutionWalkthrough.applyOp w

/-- Reachability in exactly n single-actor moves through a successor
relation. -/
def ReachN (succs : State → List State) (start : State) : Nat → State → Prop
  | 0, t => t = start
  | n + 1, t => ∃ u, ReachN succs start n u ∧ t ∈ succs u

/-- Reachability in at most n moves. -/
def ReachLe (succs : State → List State) (start : State) (n : Nat)
    (t : State) : Prop :=
  ∃ k, k ≤ n ∧ ReachN succs start k t

/-- t's least move count from start is exactly n. -/
def DistIs (succs : State → List State) (start : State) (n : Nat)
    (t : State) : Prop :=
  ReachN succs start n t ∧ ∀ k, k < n → ¬ ReachN succs start k t

/-- Validity of a reversed search path: the head is the newest state and
each state is a successor of the one after it, ending at start. -/
def RPath (succs : State → List State) (start : State) : List State → Prop
  | [] => False
  | [c] => c = start
  | c :: d :: rest => c ∈ succs d ∧ RPath succs start (d :: rest)

/-- A solution path as the solver contract describes it: it begins at the
given state, consecutive entries are single-actor slide successors, and it
ends at a goal-satisfying state. -/
def ValidSolution (s : State) (q : List State) : Prop :=
  q.head? = some s ∧
  List.Chain' (fun a b => b ∈ State.all_successors a) q ∧
  ∃ g, q.getLast? = some g ∧ g.is_at_goal = true

/-- The cell one step beyond a position in a direction, none when that cell
is off-board. -/
def State.beyondCell (s : State) (p : Pos) : Direction → Option Pos
  | Direction.Up => if p.y = 0 then none else some ⟨p.x, p.y - 1⟩
  | Direction.Down =>
      if p.y + 1 < s.invariants.rows then some ⟨p.x, p.y + 1⟩ else none
  | Direction.Left => if p.x = 0 then none else some ⟨p.x - 1, p.y⟩
  | Direction.Right =>
      if p.x + 1 < s.invariants.cols then some ⟨p.x + 1, p.y⟩ else none

/-- P lies strictly closer than start to the board edge in the given
direction, on the same scan line. -/
def closer_to_edge (start P : Pos) : Direction → Prop
  | Direction.Up => P.x = start.x ∧ P.y < start.y
  | Direction.Down => P.x = start.x ∧ start.y < P.y
  | Direction.Left => P.y = start.y ∧ P.x < start.x
  | Direction.Right => P.y = start.y ∧ start.x < P.x

/-- The position sits at the board boundary in the given direction, with no
further cells to traverse. -/
def State.at_boundary (s : State) (p : Pos) : Direction → Prop
  | Direction.Up => p.y = 0
  | Direction.Down => s.invariants.rows ≤ p.y + 1
  | Direction.Left => p.x = 0
  | Direction.Right => s.invariants.cols ≤ p.x + 1

/-- Universe of states sharing s's invariants and robot count whose actor
coordinates all lie below s's coordinate bound; reachability preserves it. -/
def InUniv (s t : State) : Prop :=
  t.invariants = s.invariants ∧ t.robots.length = s.robots.length ∧
  t.astro.x < s.coordBound ∧ t.astro.y < s.coordBound ∧
  ∀ p ∈ t.robots, p.x < s.coordBound ∧ p.y < s.coordBound

/-- Injective encoding of a position with coordinates below B. -/
def encodePos (B : Nat) (p : Pos) : Nat := p.x * B + p.y

/-- Base-B2 digit encoding of a list of digits below B2. -/
def encodeList (B2 : Nat) : List Nat → Nat
  | [] => 0
  | d :: ds => d + B2 * encodeList B2 ds

/-- Injective encoding of a state of s's universe as a natural number below
s.numStatesBound. -/
def encodeState (s t : State) : Nat :=
  encodeList (s.coordBound * s.coordBound)
    ((t.astro :: t.robots).map (encodePos s.coordBound))

/-- Number of cells of the layout carrying the given tile. -/
def TileGrid.countTile (g : TileGrid) (tl : Tile) : Nat :=
  (gridPositions g.cols g.rows).countP (fun p => decide (g.tile p.x p.y = tl))

/-- Invariant of the breadth-first search at the entry of a level: the
visited list holds exactly the states whose distance is at most the level,
every frontier entry is a reversed path of the level's length ending at a
state at exactly the level's distance, and every state at exactly the
level's distance heads some frontier entry. -/
def BfsInv (succs : State → List State) (start : State) (lvl : Nat)
    (frontier : List (List State)) (visited : List State) : Prop :=
  (∀ t, t ∈ visited ↔ ReachLe succs start lvl t) ∧
  (∀ p ∈ frontier, ∃ c t, p = c :: t ∧ DistIs succs start lvl c ∧
    RPath succs start p ∧ p.length = lvl + 1) ∧
  (∀ s, DistIs succs start lvl s → ∃ p ∈ frontier, p.head? = some s)

theorem mem_path_up {s : State} {q p : Pos}
    (h : p ∈ s.positions_in_path q Direction.Up) : p.x = q.x ∧ p.y < q.y := by
  simp only [State.positions_in_path, List.mem_map, List.mem_reverse,
    List.mem_range] at h
  obtain ⟨y, hy, rfl⟩ := h
  exact ⟨rfl, hy⟩

theorem mem_path_down {s : State} {q p : Pos}
    (h : p ∈ s.positions_in_path q Direction.Down) :
    p.x = q.x ∧ q.y < p.y ∧ p.y < s.invariants.rows := by
  simp only [State.positions_in_path, List.mem_map, List.mem_range'] at h
  obtain ⟨y, ⟨i, hi, rfl⟩, rfl⟩ := h
  refine ⟨rfl, ?_, ?_⟩ <;> dsimp <;> omega

theorem mem_path_left {s : State} {q p : Pos}
    (h : p ∈ s.positions_in_path q Direction.Left) : p.y = q.y ∧ p.x < q.x := by
  simp only [State.positions_in_path, List.mem_map, List.mem_reverse,
    List.mem_range] at h
  obtain ⟨x, hx, rfl⟩ := h
  exact ⟨rfl, hx⟩

theorem mem_path_right {s : State} {q p : Pos}
    (h : p ∈ s.positions_in_path q Direction.Right) :
    p.y = q.y ∧ q.x < p.x ∧ p.x < s.invariants.cols := by
  simp only [State.positions_in_path, List.mem_map, List.mem_range'] at h
  obtain ⟨x, ⟨i, hi, rfl⟩, rfl⟩ := h
  refine ⟨rfl, ?_, ?_⟩ <;> dsimp <;> omega

theorem path_get_up {s : State} {q : Pos} {i : Nat} (h : i < q.y) :
    (s.positions_in_path q Direction.Up)[i]? = some ⟨q.x, q.y - 1 - i⟩ := by
  simp only [State.positions_in_path, List.getElem?_map]
  rw [List.getElem?_reverse (by simpa using h), List.length_range,
    List.getElem?_range (by omega)]
  rfl

theorem path_get_down {s : State} {q : Pos} {i : Nat}
    (h : i < s.invariants.rows - (q.y + 1)) :
    (s.positions_in_path q Direction.Down)[i]? = some ⟨q.x, q.y + 1 + i⟩ := by
  simp only [State.positions_in_path, List.getElem?_map]
  rw [List.getElem?_range' _ _ h]
  simp [Nat.one_mul]

theorem path_get_left {s : State} {q : Pos} {i : Nat} (h : i < q.x) :
    (s.positions_in_path q Direction.Left)[i]? = some ⟨q.x - 1 - i, q.y⟩ := by
  simp only [State.positions_in_path, List.getElem?_map]
  rw [List.getElem?_reverse (by simpa using h), List.length_range,
    List.getElem?_range (by omega)]
  rfl

theorem path_get_right {s : State} {q : Pos} {i : Nat}
    (h : i < s.invariants.cols - (q.x + 1)) :
    (s.positions_in_path q Direction.Right)[i]? = some ⟨q.x + 1 + i, q.y⟩ := by
  simp only [State.positions_in_path, List.getElem?_map]
  rw [List.getElem?_range' _ _ h]
  simp [Nat.one_mul]

theorem path_length_up {s : State} {q : Pos} :
    (s.positions_in_path q Direction.Up).length = q.y := by
  simp [State.positions_in_path]

theorem path_length_down {s : State} {q : Pos} :
    (s.positions_in_path q Direction.Down).length
      = s.invariants.rows - (q.y + 1) := by
  simp [State.positions_in_path]

theorem path_length_left {s : State} {q : Pos} :
    (s.positions_in_path q Direction.Left).length = q.x := by
  simp [State.positions_in_path]

theorem path_length_right {s : State} {q : Pos} :
    (s.positions_in_path q Direction.Right).length
      = s.invariants.cols - (q.x + 1) := by
  simp [State.positions_in_path]

theorem moveLoop_success {s : State} : ∀ {l : List Pos} {P : Pos},
    s.moveLoop l = MovementAttempt.Success P →
    ∃ i next, l[i]? = some P ∧ l[i + 1]? = some next ∧
      (s.tile_at next = Tile.Robot ∨ s.tile_at next = Tile.Astro) := by
  intro l
  induction l with
  | nil => intro P h; simp [State.moveLoop] at h
  | cons pos rest ih =>
    intro P h
    rw [State.moveLoop] at h
    cases htile : s.tile_at pos
    case Astro => simp only [htile, reduceCtorEq] at h
    case Robot => simp only [htile, reduceCtorEq] at h
    all_goals {
      simp only [htile] at h
      cases hh : rest.head?
      case none =>
        simp only [hh] at h
        obtain ⟨i, next, h1, h2, h3⟩ := ih h
        exact ⟨i + 1, next, by simpa using h1, by simpa using h2, h3⟩
      case some nx =>
        simp only [hh] at h
        cases htile2 : s.tile_at nx
        case Robot =>
          simp only [htile2, MovementAttempt.Success.injEq] at h
          subst h
          exact ⟨0, nx, by simp, by simpa [List.head?_eq_getElem?] using hh,
            Or.inl htile2⟩
        case Astro =>
          simp only [htile2, MovementAttempt.Success.injEq] at h
          subst h
          exact ⟨0, nx, by simp, by simpa [List.head?_eq_getElem?] using hh,
            Or.inr htile2⟩
        all_goals {
          simp only [htile2] at h
          obtain ⟨i, next, h1, h2, h3⟩ := ih h
          exact ⟨i + 1, next, by simpa using h1, by simpa using h2, h3⟩
        }
    }

theorem moveLoop_failure_of_stoppable {s : State} : ∀ l : List Pos,
    (∀ p ∈ l, s.tile_at p = Tile.Empty ∨ s.tile_at p = Tile.Goal) →
    s.moveLoop l = MovementAttempt.Failure := by
  intro l
  induction l with
  | nil => intro _; rfl
  | cons pos rest ih =>
    intro hall
    have hpos := hall pos (by simp)
    have hrest : ∀ p ∈ rest, s.tile_at p = Tile.Empty ∨ s.tile_at p = Tile.Goal :=
      fun p hp => hall p (by simp [hp])
    have hloop := ih hrest
    rw [State.moveLoop]
    cases hh : rest.head?
    case none =>
      rcases hpos with hpos | hpos <;> simp only [hpos, hh] <;> exact hloop
    case some nx =>
      have hnx : nx ∈ rest := by
        cases rest with
        | nil => simp at hh
        | cons a t => cases hh; simp
      rcases hpos with hpos | hpos <;>
        rcases hrest nx hnx with h2 | h2 <;>
          simp only [hpos, hh, h2] <;> exact hloop

theorem lt_length_of_getElem?_some {α : Type} {l : List α} {n : Nat} {a : α}
    (h : l[n]? = some a) : n < l.length := by
  obtain ⟨h1, _⟩ := List.getElem?_eq_some.mp h
  exact h1

theorem path_empty_of_boundary {s : State} {pos : Pos} {d : Direction}
    (h : s.at_boundary pos d) : s.positions_in_path pos d = [] := by
  cases d
  case Up =>
    rw [State.at_boundary] at h
    rw [State.positions_in_path, h]
    rfl
  case Down =>
    rw [State.at_boundary] at h
    rw [State.positions_in_path, Nat.sub_eq_zero_of_le h]
    rfl
  case Left =>
    rw [State.at_boundary] at h
    rw [State.positions_in_path, h]
    rfl
  case Right =>
    rw [State.at_boundary] at h
    rw [State.positions_in_path, Nat.sub_eq_zero_of_le h]
    rfl

theorem path_head_of_beyond {s : State} {pos b : Pos} {d : Direction}
    (h : s.beyondCell pos d = some b) :
    (s.positions_in_path pos d).head? = some b := by
  rw [List.head?_eq_getElem?]
  cases d
  case Up =>
    rw [State.beyondCell] at h
    by_cases h0 : pos.y = 0
    · simp [h0] at h
    · simp only [h0, if_false] at h
      obtain rfl : (⟨pos.x, pos.y - 1⟩ : Pos) = b := by simpa using h
      rw [path_get_up (by omega)]
      simp
  case Down =>
    rw [State.beyondCell] at h
    by_cases h0 : pos.y + 1 < s.invariants.rows
    · simp only [h0, if_true] at h
      obtain rfl : (⟨pos.x, pos.y + 1⟩ : Pos) = b := by simpa using h
      rw [path_get_down (by omega)]
    · simp [h0] at h
  case Left =>
    rw [State.beyondCell] at h
    by_cases h0 : pos.x = 0
    · simp [h0] at h
    · simp only [h0, if_false] at h
      obtain rfl : (⟨pos.x - 1, pos.y⟩ : Pos) = b := by simpa using h
      rw [path_get_left (by omega)]
      simp
  case Right =>
    rw [State.beyondCell] at h
    by_cases h0 : pos.x + 1 < s.invariants.cols
    · simp only [h0, if_true] at h
      obtain rfl : (⟨pos.x + 1, pos.y⟩ : Pos) = b := by simpa using h
      rw [path_get_right (by omega)]
    · simp [h0] at h

theorem move_success_analysis {s : State} {start P : Pos} {d : Direction}
    (h : s.move_toward start d = MovementAttempt.Success P) :
    closer_to_edge start P d ∧
      ∃ b, s.beyondCell P d = some b ∧
        (s.tile_at b = Tile.Robot ∨ s.tile_at b = Tile.Astro) := by
  obtain ⟨i, next, h1, h2, h3⟩ := moveLoop_success h
  have hlen := lt_length_of_getElem?_some h2
  cases d
  case Up =>
    rw [path_length_up] at hlen
    rw [path_get_up (by omega)] at h1
    rw [path_get_up (by omega)] at h2
    obtain rfl : P = ⟨start.x, start.y - 1 - i⟩ := by simpa using h1.symm
    obtain rfl : next = ⟨start.x, start.y - 1 - (i + 1)⟩ := by simpa using h2.symm
    refine ⟨⟨rfl, by dsimp; omega⟩, ⟨start.x, start.y - 1 - (i + 1)⟩, ?_, h3⟩
    rw [State.beyondCell]
    have hne : ¬ ((⟨start.x, start.y - 1 - i⟩ : Pos).y = 0) := by dsimp; omega
    simp only [hne, if_false]
    congr 2
  case Down =>
    rw [path_length_down] at hlen
    rw [path_get_down (by omega)] at h1
    rw [path_get_down (by omega)] at h2
    obtain rfl : P = ⟨start.x, start.y + 1 + i⟩ := by simpa using h1.symm
    obtain rfl : next = ⟨start.x, start.y + 1 + (i + 1)⟩ := by simpa using h2.symm
    refine ⟨⟨rfl, by dsimp; omega⟩, ⟨start.x, start.y + 1 + (i + 1)⟩, ?_, h3⟩
    rw [State.beyondCell]
    have hlt : (⟨start.x, start.y + 1 + i⟩ : Pos).y + 1 < s.invariants.rows := by
      dsimp; omega
    simp only [hlt, if_true]
    congr 2
  case Left =>
    rw [path_length_left] at hlen
    rw [path_get_left (by omega)] at h1
    rw [path_get_left (by omega)] at h2
    obtain rfl : P = ⟨start.x - 1 - i, start.y⟩ := by simpa using h1.symm
    obtain rfl : next = ⟨start.x - 1 - (i + 1), start.y⟩ := by simpa using h2.symm
    refine ⟨⟨rfl, by dsimp; omega⟩, ⟨start.x - 1 - (i + 1), start.y⟩, ?_, h3⟩
    rw [State.beyondCell]
    have hne : ¬ ((⟨start.x - 1 - i, start.y⟩ : Pos).x = 0) := by dsimp; omega
    simp only [hne, if_false]
    congr 2
  case Right =>
    rw [path_length_right] at hlen
    rw [path_get_right (by omega)] at h1
    rw [path_get_right (by omega)] at h2
    obtain rfl : P = ⟨start.x + 1 + i, start.y⟩ := by simpa using h1.symm
    obtain rfl : next = ⟨start.x + 1 + (i + 1), start.y⟩ := by simpa using h2.symm
    refine ⟨⟨rfl, by dsimp; omega⟩, ⟨start.x + 1 + (i + 1), start.y⟩, ?_, h3⟩
    rw [State.beyondCell]
    have hlt : (⟨start.x + 1 + i, start.y⟩ : Pos).x + 1 < s.invariants.cols := by
      dsimp; omega
    simp only [hlt, if_true]
    congr 2

/-- Claim C1 (amended): during the slide scan of move_toward, a cell that is
Empty or Goal with no next cell does not stop the slide with Success; the
loop continues, finds the path exhausted, and returns Failure. Hence an
actor sliding with no obstruction ahead (every scanned cell Empty or Goal)
does not stop on the last free cell before the board edge: the whole move
fails. -/
theorem claim_C1 (s : State) (pos : Pos) (d : Direction)
    (h : ∀ p ∈ s.positions_in_path pos d,
      s.tile_at p = Tile.Empty ∨ s.tile_at p = Tile.Goal) :
    s.move_toward pos d = MovementAttempt.Failure :=
  moveLoop_failure_of_stoppable _ h

/-- Witness for claim C1's theorem: on a 4 by 4 board with the astronaut at
(0,0), the goal at (3,0) and no robots, every cell scanned by a slide to
the right is Empty or Goal, and the slide fails. -/
theorem claim_C1_witness :
    State.move_toward ⟨⟨0, 0⟩, [], ⟨⟨3, 0⟩, 4, 4⟩⟩ ⟨0, 0⟩ Direction.Right
      = MovementAttempt.Failure :=
  claim_C1 _ _ _ (by decide)

/-- Counterexample to claim C1 as stated: on a 4 by 4 board with the
astronaut at (0,0), the goal at (3,0) and no robots, the slide to the right
scans only Empty or Goal cells and reaches the board edge, yet move_toward
does not return Success((3,0)), the last free cell before the edge. -/
theorem claim_C1_counterexample :
    (∀ p ∈ State.positions_in_path ⟨⟨0, 0⟩, [], ⟨⟨3, 0⟩, 4, 4⟩⟩ ⟨0, 0⟩
        Direction.Right,
      State.tile_at ⟨⟨0, 0⟩, [], ⟨⟨3, 0⟩, 4, 4⟩⟩ p = Tile.Empty ∨
        State.tile_at ⟨⟨0, 0⟩, [], ⟨⟨3, 0⟩, 4, 4⟩⟩ p = Tile.Goal) ∧
    ¬ (State.move_toward ⟨⟨0, 0⟩, [], ⟨⟨3, 0⟩, 4, 4⟩⟩ ⟨0, 0⟩ Direction.Right
        = MovementAttempt.Success ⟨3, 0⟩) := by
  decide

/-- Claim C5: a successful slide lands strictly closer to the board edge in
its direction than the start, and the cell immediately beyond the landing
position is off-board or holds another actor. -/
theorem claim_C5 (s : State) (start P : Pos) (d : Direction)
    (h : s.move_toward start d = MovementAttempt.Success P) :
    closer_to_edge start P d ∧
      (s.beyondCell P d = none ∨
        ∃ b, s.beyondCell P d = some b ∧
          (s.tile_at b = Tile.Robot ∨ s.tile_at b = Tile.Astro)) :=
  ⟨(move_success_analysis h).1, Or.inr (move_success_analysis h).2⟩

/-- Witness for claim C5's theorem at a concrete slide: with a robot at
(3,0), sliding right from (0,0) lands at (2,0). -/
theorem claim_C5_witness :
    closer_to_edge ⟨0, 0⟩ ⟨2, 0⟩ Direction.Right ∧
      (State.beyondCell ⟨⟨0, 0⟩, [⟨3, 0⟩], ⟨⟨3, 3⟩, 4, 4⟩⟩ ⟨2, 0⟩
          Direction.Right = none ∨
        ∃ b, State.beyondCell ⟨⟨0, 0⟩, [⟨3, 0⟩], ⟨⟨3, 3⟩, 4, 4⟩⟩ ⟨2, 0⟩
            Direction.Right = some b ∧
          (State.tile_at ⟨⟨0, 0⟩, [⟨3, 0⟩], ⟨⟨3, 3⟩, 4, 4⟩⟩ b = Tile.Robot ∨
            State.tile_at ⟨⟨0, 0⟩, [⟨3, 0⟩], ⟨⟨3, 3⟩, 4, 4⟩⟩ b = Tile.Astro)) :=
  claim_C5 _ _ _ _ (by decide)

/-- Claim C6: a slide fails when the actor already sits at the board
boundary in the direction with nothing further to traverse, and also when
the cell immediately adjacent in the direction holds another actor. -/
theorem claim_C6 (s : State) (pos : Pos) (d : Direction) :
    (s.at_boundary pos d → s.move_toward pos d = MovementAttempt.Failure) ∧
    (∀ b, s.beyondCell pos d = some b →
      (s.tile_at b = Tile.Robot ∨ s.tile_at b = Tile.Astro) →
      s.move_toward pos d = MovementAttempt.Failure) := by
  constructor
  · intro h
    rw [State.move_toward, path_empty_of_boundary h]
    rfl
  · intro b hb htile
    have hhead := path_head_of_beyond hb
    rw [State.move_toward]
    cases hpath : s.positions_in_path pos d with
    | nil => rfl
    | cons a rest =>
      rw [hpath] at hhead
      obtain rfl : a = b := by simpa using hhead
      rw [State.moveLoop]
      rcases htile with h | h <;> simp only [h]

/-- Witness for claim C6's theorem: sliding up from the top row fails, and
sliding right into an adjacent robot fails. -/
theorem claim_C6_witness :
    State.move_toward ⟨⟨0, 0⟩, [⟨1, 0⟩], ⟨⟨3, 3⟩, 4, 4⟩⟩ ⟨0, 0⟩ Direction.Up
        = MovementAttempt.Failure ∧
    State.move_toward ⟨⟨0, 0⟩, [⟨1, 0⟩], ⟨⟨3, 3⟩, 4, 4⟩⟩ ⟨0, 0⟩ Direction.Right
        = MovementAttempt.Failure :=
  ⟨(claim_C6 _ _ _).1 rfl,
   (claim_C6 _ _ _).2 ⟨1, 0⟩ (by decide) (by decide)⟩

theorem applyOp_solution (w : SolutionWalkthrough) (op : WalkOp) :
    (w.applyOp op).solution = w.solution := by
  cases op <;>
    simp only [SolutionWalkthrough.applyOp, SolutionWalkthrough.increment,
      SolutionWalkthrough.decrement] <;>
    split <;> rfl

theorem applyOp_step_le (w : SolutionWalkthrough) (op : WalkOp)
    (h : w.current_step ≤ w.solution.length - 1) :
    (w.applyOp op).current_step ≤ w.solution.length - 1 := by
  cases op
  case next =>
    simp only [SolutionWalkthrough.applyOp, SolutionWalkthrough.increment,
      SolutionWalkthrough.len]
    split
    · rename_i hlt
      show w.current_step + 1 ≤ w.solution.length - 1
      omega
    · exact h
  case prev =>
    simp only [SolutionWalkthrough.applyOp, SolutionWalkthrough.decrement]
    split
    · show w.current_step - 1 ≤ w.solution.length - 1
      omega
    · exact h

theorem applyOps_inv (ops : List WalkOp) : ∀ w : SolutionWalkthrough,
    w.current_step ≤ w.solution.length - 1 →
    (w.applyOps ops).solution = w.solution ∧
      (w.applyOps ops).current_step ≤ w.solution.length - 1 := by
  induction ops with
  | nil => intro w h; exact ⟨rfl, h⟩
  | cons op ops ih =>
    intro w h
    have hstep := applyOp_step_le w op h
    have hsol := applyOp_solution w op
    have := ih (w.applyOp op) (by rw [hsol]; exact hstep)
    rw [hsol] at this
    exact this

/-- Claim C10: for a solution path of length at least one, the walkthrough
cursor starts at 0, remains within the solution's index range under every
sequence of increment and decrement operations, and the state under the
cursor is always a member of the solution path. -/
theorem claim_C10 (solution : List State) (ops : List WalkOp)
    (h : 1 ≤ solution.length) :
    (SolutionWalkthrough.new solution).current_step = 0 ∧
    ((SolutionWalkthrough.new solution).applyOps ops).current_step
        ≤ solution.length - 1 ∧
    ∃ st, ((SolutionWalkthrough.new solution).applyOps ops).state = some st ∧
      st ∈ solution := by
  have h0 : (SolutionWalkthrough.new solution).current_step
      ≤ (SolutionWalkthrough.new solution).solution.length - 1 := by
    simp [SolutionWalkthrough.new]
  obtain ⟨hsol, hstep⟩ := applyOps_inv ops (SolutionWalkthrough.new solution) h0
  have hstep' : ((SolutionWalkthrough.new solution).applyOps ops).current_step
      ≤ solution.length - 1 := hstep
  refine ⟨rfl, hstep', ?_⟩
  have hlt : ((SolutionWalkthrough.new solution).applyOps ops).current_step
      < solution.length := by omega
  rw [SolutionWalkthrough.state, List.get?_eq_getElem?]
  have hsol' : ((SolutionWalkthrough.new solution).applyOps ops).solution
      = solution := hsol
  rw [hsol']
  have hsome := List.getElem?_eq_getElem hlt
  exact ⟨_, hsome, List.getElem_mem _⟩

/-- Witness for claim C10's theorem at a concrete one-state solution and a
concrete operation sequence. -/
theorem claim_C10_witness :
    (SolutionWalkthrough.new [⟨⟨0, 0⟩, [], ⟨⟨0, 0⟩, 1, 1⟩⟩]).current_step = 0 ∧
    ((SolutionWalkthrough.new [⟨⟨0, 0⟩, [], ⟨⟨0, 0⟩, 1, 1⟩⟩]).applyOps
        [WalkOp.next, WalkOp.next, WalkOp.prev]).current_step
        ≤ [(⟨⟨0, 0⟩, [], ⟨⟨0, 0⟩, 1, 1⟩⟩ : State)].length - 1 ∧
    ∃ st, ((SolutionWalkthrough.new [⟨⟨0, 0⟩, [], ⟨⟨0, 0⟩, 1, 1⟩⟩]).applyOps
        [WalkOp.next, WalkOp.next, WalkOp.prev]).state = some st ∧
      st ∈ [(⟨⟨0, 0⟩, [], ⟨⟨0, 0⟩, 1, 1⟩⟩ : State)] :=
  claim_C10 _ _ (by decide)

theorem state_eq_iff (s t : State) :
    s = t ↔ s.astro = t.astro ∧ s.robots = t.robots ∧
      s.invariants = t.invariants := by
  cases s; cases t; simp [State.mk.injEq]

theorem posChangeZipFind_none : ∀ (xs ys : List Pos),
    xs.length = ys.length → (posChangeZipFind xs ys = none ↔ xs = ys) := by
  intro xs
  induction xs with
  | nil =>
    intro ys h
    cases ys with
    | nil => simp [posChangeZipFind]
    | cons y ys => simp at h
  | cons x xs ih =>
    intro ys h
    cases ys with
    | nil => simp at h
    | cons y ys =>
      rw [posChangeZipFind]
      by_cases hxy : x = y
      · subst hxy
        simp only [ne_eq, not_true_eq_false, if_false]
        rw [ih ys (by simpa using h)]
        simp
      · simp [hxy]

theorem posChangeZipFind_first : ∀ (i : Nat) (xs ys : List Pos) (a b : Pos),
    (∀ j, j < i → xs[j]? = ys[j]?) → xs[i]? = some a → ys[i]? = some b →
    a ≠ b → posChangeZipFind xs ys = some ⟨a, b⟩ := by
  intro i
  induction i with
  | zero =>
    intro xs ys a b _ ha hb hab
    cases xs with
    | nil => simp at ha
    | cons x xs =>
      cases ys with
      | nil => simp at hb
      | cons y ys =>
        obtain rfl : x = a := by simpa using ha
        obtain rfl : y = b := by simpa using hb
        rw [posChangeZipFind]
        simp [hab]
  | succ i ih =>
    intro xs ys a b hj ha hb hab
    cases xs with
    | nil => simp at ha
    | cons x xs =>
      cases ys with
      | nil => simp at hb
      | cons y ys =>
        have hxy : x = y := by simpa using hj 0 (by omega)
        subst hxy
        rw [posChangeZipFind]
        simp only [ne_eq, not_true_eq_false, if_false]
        exact ih xs ys a b
          (fun j hjlt => by simpa using hj (j + 1) (by omega))
          (by simpa using ha) (by simpa using hb) hab

/-- Claim C8: the position-change diff of two states fails exactly when the
states have mismatched invariants, or differing robot counts, or are
identical; otherwise it reports the differing actor's before and after
positions, the astronaut being checked before any robot, and a first
differing robot being reported when the astronaut is unchanged. -/
theorem claim_C8 (s t : State) :
    ((∃ e, PosChange.try_from s t = Except.error e) ↔
      (s.invariants ≠ t.invariants ∨ s.robots.length ≠ t.robots.length ∨
        s = t)) ∧
    (s.invariants = t.invariants → s.robots.length = t.robots.length →
      s.astro ≠ t.astro →
      PosChange.try_from s t = Except.ok ⟨s.astro, t.astro⟩) ∧
    (s.invariants = t.invariants → s.robots.length = t.robots.length →
      s.astro = t.astro →
      ∀ (i : Nat) (a b : Pos), (∀ j, j < i → s.robots[j]? = t.robots[j]?) →
        s.robots[i]? = some a → t.robots[i]? = some b → a ≠ b →
        PosChange.try_from s t = Except.ok ⟨a, b⟩) := by
  refine ⟨?_, ?_, ?_⟩
  · by_cases hinv : s.invariants = t.invariants
    · by_cases hlen : s.robots.length = t.robots.length
      · by_cases hastro : s.astro = t.astro
        · rw [PosChange.try_from]
          simp only [hinv, hlen, hastro, ne_eq, not_true_eq_false, if_false]
          cases hfind : posChangeZipFind s.robots t.robots with
          | none =>
            have heq : s = t := (state_eq_iff s t).mpr
              ⟨hastro, (posChangeZipFind_none _ _ hlen).mp hfind, hinv⟩
            simp [heq]
          | some pc =>
            have hne : ¬ s.robots = t.robots := by
              intro hr
              rw [(posChangeZipFind_none _ _ hlen).mpr hr] at hfind
              exact absurd hfind (by simp)
            have : ¬ s = t := fun he => hne (by rw [he])
            simp [hinv, hlen, this]
        · rw [PosChange.try_from]
          simp only [hinv, hlen, hastro, ne_eq, not_true_eq_false, if_false,
            not_false_eq_true, if_true]
          have : ¬ s = t := fun he => hastro (by rw [he])
          simp [hinv, hlen, this]
      · rw [PosChange.try_from]
        simp [hinv, hlen]
    · rw [PosChange.try_from]
      have : ¬ s = t := fun he => hinv (by rw [he])
      simp [hinv, this]
  · intro hinv hlen hastro
    rw [PosChange.try_from]
    simp [hinv, hlen, hastro]
  · intro hinv hlen hastro i a b hj ha hb hab
    rw [PosChange.try_from]
    simp only [hinv, hlen, hastro, ne_eq, not_true_eq_false, if_false]
    rw [posChangeZipFind_first i s.robots t.robots a b hj ha hb hab]

/-- Witness for claim C8's theorem: two states differing only in the
astronaut's position from (1,1) to (1,3) yield exactly that astronaut diff,
not a robot diff. -/
theorem claim_C8_witness :
    PosChange.try_from ⟨⟨1, 1⟩, [⟨0, 0⟩], ⟨⟨3, 3⟩, 4, 4⟩⟩
        ⟨⟨1, 3⟩, [⟨0, 0⟩], ⟨⟨3, 3⟩, 4, 4⟩⟩
      = Except.ok ⟨⟨1, 1⟩, ⟨1, 3⟩⟩ :=
  (claim_C8 _ _).2.1 rfl rfl (by decide)

theorem scanTiles_spec (g : TileGrid) : ∀ (l : List Pos) (a? g? : Option Pos)
    (r : List Pos),
    ((∃ res, scanTiles g l a? g? r = Except.ok res) ↔
      (l.countP (fun p => decide (g.tile p.x p.y = Tile.Astro))
          + (if a?.isSome then 1 else 0) ≤ 1 ∧
        l.countP (fun p => decide (g.tile p.x p.y = Tile.Goal))
          + (if g?.isSome then 1 else 0) ≤ 1)) ∧
    (∀ a' g' r', scanTiles g l a? g? r = Except.ok (a', g', r') →
      (a'.isSome ↔
        1 ≤ l.countP (fun p => decide (g.tile p.x p.y = Tile.Astro))
          + (if a?.isSome then 1 else 0)) ∧
      (g'.isSome ↔
        1 ≤ l.countP (fun p => decide (g.tile p.x p.y = Tile.Goal))
          + (if g?.isSome then 1 else 0))) ∧
    (∀ e, scanTiles g l a? g? r = Except.error e →
      e = "more than one player" ∨ e = "more than one goal") := by
  intro l
  induction l with
  | nil =>
    intro a? g? r
    refine ⟨?_, ?_, ?_⟩
    · simp only [scanTiles, List.countP_nil, Nat.zero_add]
      constructor
      · intro _
        constructor <;> split <;> omega
      · intro _
        exact ⟨_, rfl⟩
    · intro a' g' r' h
      rw [scanTiles] at h
      obtain ⟨rfl, rfl, rfl⟩ : a? = a' ∧ g? = g' ∧ r = r' := by
        simpa using h
      simp only [List.countP_nil, Nat.zero_add]
      constructor <;> split <;> simp_all
    · intro e h
      rw [scanTiles] at h
      exact absurd h (by simp)
  | cons p ps ih =>
    intro a? g? r
    cases ht : g.tile p.x p.y
    case Empty =>
      have heq : scanTiles g (p :: ps) a? g? r = scanTiles g ps a? g? r := by
        rw [scanTiles, ht]
      rw [heq]
      have hca : (p :: ps).countP
          (fun p => decide (g.tile p.x p.y = Tile.Astro))
          = ps.countP (fun p => decide (g.tile p.x p.y = Tile.Astro)) := by
        simp [List.countP_cons, ht]
      have hcg : (p :: ps).countP
          (fun p => decide (g.tile p.x p.y = Tile.Goal))
          = ps.countP (fun p => decide (g.tile p.x p.y = Tile.Goal)) := by
        simp [List.countP_cons, ht]
      rw [hca, hcg]
      exact ih a? g? r
    case Robot =>
      have heq : scanTiles g (p :: ps) a? g? r
          = scanTiles g ps a? g? (r ++ [p]) := by
        rw [scanTiles, ht]
      rw [heq]
      have hca : (p :: ps).countP
          (fun p => decide (g.tile p.x p.y = Tile.Astro))
          = ps.countP (fun p => decide (g.tile p.x p.y = Tile.Astro)) := by
        simp [List.countP_cons, ht]
      have hcg : (p :: ps).countP
          (fun p => decide (g.tile p.x p.y = Tile.Goal))
          = ps.countP (fun p => decide (g.tile p.x p.y = Tile.Goal)) := by
        simp [List.countP_cons, ht]
      rw [hca, hcg]
      exact ih a? g? (r ++ [p])
    case Astro =>
      have hca : (p :: ps).countP
          (fun p => decide (g.tile p.x p.y = Tile.Astro))
          = ps.countP (fun p => decide (g.tile p.x p.y = Tile.Astro)) + 1 := by
        simp [List.countP_cons, ht]
      have hcg : (p :: ps).countP
          (fun p => decide (g.tile p.x p.y = Tile.Goal))
          = ps.countP (fun p => decide (g.tile p.x p.y = Tile.Goal)) := by
        simp [List.countP_cons, ht]
      cases a?
      case some a0 =>
        have heq : scanTiles g (p :: ps) (some a0) g? r
            = Except.error "more than one player" := by
          rw [scanTiles, ht]
          rfl
        rw [heq, hca, hcg]
        refine ⟨?_, ?_, ?_⟩
        · simp only [Option.isSome_some, if_true]
          constructor
          · intro ⟨res, hres⟩
            exact absurd hres (by simp)
          · intro ⟨h1, _⟩
            omega
        · intro a' g' r' h
          exact absurd h (by simp)
        · intro e h
          left
          simpa using h.symm
      case none =>
        have heq : scanTiles g (p :: ps) none g? r
            = scanTiles g ps (some p) g? r := by
          rw [scanTiles, ht]
          rfl
        rw [heq, hca, hcg]
        obtain ⟨ih1, ih2, ih3⟩ := ih (some p) g? r
        simp only [Option.isSome_some, if_true, Option.isSome_none,
          if_false, Nat.add_zero] at ih1 ih2 ⊢
        refine ⟨by rw [ih1]; simp, ?_, ih3⟩
        intro a' g' r' h
        obtain ⟨h2a, h2g⟩ := ih2 a' g' r' h
        constructor
        · rw [h2a]; omega
        · rw [h2g]
    case Goal =>
      have hca : (p :: ps).countP
          (fun p => decide (g.tile p.x p.y = Tile.Astro))
          = ps.countP (fun p => decide (g.tile p.x p.y = Tile.Astro)) := by
        simp [List.countP_cons, ht]
      have hcg : (p :: ps).countP
          (fun p => decide (g.tile p.x p.y = Tile.Goal))
          = ps.countP (fun p => decide (g.tile p.x p.y = Tile.Goal)) + 1 := by
        simp [List.countP_cons, ht]
      cases g?
      case some g0 =>
        have heq : scanTiles g (p :: ps) a? (some g0) r
            = Except.error "more than one goal" := by
          rw [scanTiles, ht]
          rfl
        rw [heq, hca, hcg]
        refine ⟨?_, ?_, ?_⟩
        · simp only [Option.isSome_some, if_true]
          constructor
          · intro ⟨res, hres⟩
            exact absurd hres (by simp)
          · intro ⟨_, h2⟩
            omega
        · intro a' g' r' h
          exact absurd h (by simp)
        · intro e h
          right
          simpa using h.symm
      case none =>
        have heq : scanTiles g (p :: ps) a? none r
            = scanTiles g ps a? (some p) r := by
          rw [scanTiles, ht]
          rfl
        rw [heq, hca, hcg]
        obtain ⟨ih1, ih2, ih3⟩ := ih a? (some p) r
        simp only [Option.isSome_some, if_true, Option.isSome_none,
          if_false, Nat.add_zero] at ih1 ih2 ⊢
        refine ⟨by rw [ih1]; simp, ?_, ih3⟩
        intro a' g' r' h
        obtain ⟨h2a, h2g⟩ := ih2 a' g' r' h
        constructor
        · rw [h2a]
        · rw [h2g]; omega

/-- Claim C7: construction of a State from a board layout succeeds exactly
when the layout contains exactly one Astro cell and exactly one Goal cell
(any number of Robot cells), and otherwise fails with one of the errors
"no player", "more than one player", "no goal", "more than one goal",
producing no partial state. -/
theorem claim_C7 (g : TileGrid) :
    ((∃ s, State.from_grid g = Except.ok s) ↔
      g.countTile Tile.Astro = 1 ∧ g.countTile Tile.Goal = 1) ∧
    (∀ e, State.from_grid g = Except.error e →
      e = "no player" ∨ e = "more than one player" ∨ e = "no goal" ∨
        e = "more than one goal") := by
  obtain ⟨h1, h2, h3⟩ :=
    scanTiles_spec g (gridPositions g.cols g.rows) none none []
  simp only [Option.isSome_none, Bool.false_eq_true, if_false,
    Nat.add_zero] at h1 h2
  rw [TileGrid.countTile, TileGrid.countTile]
  constructor
  · constructor
    · intro ⟨s, hs⟩
      rw [State.from_grid] at hs
      cases hscan : scanTiles g (gridPositions g.cols g.rows) none none [] with
      | error e => rw [hscan] at hs; exact absurd hs (by simp)
      | ok res =>
        obtain ⟨a', g', r'⟩ := res
        rw [hscan] at hs
        obtain ⟨ha, hg⟩ := h2 a' g' r' hscan
        cases a' with
        | none => exact absurd hs (by simp)
        | some a =>
          cases g' with
          | none => exact absurd hs (by simp)
          | some gg =>
            obtain ⟨hc1, hc2⟩ := h1.mp ⟨_, hscan⟩
            have hga := ha.mp (by simp)
            have hgg := hg.mp (by simp)
            omega
    · intro ⟨hc1, hc2⟩
      obtain ⟨res, hscan⟩ := h1.mpr ⟨by omega, by omega⟩
      obtain ⟨a', g', r'⟩ := res
      obtain ⟨ha, hg⟩ := h2 a' g' r' hscan
      have hsa : a'.isSome := ha.mpr (by omega)
      have hsg : g'.isSome := hg.mpr (by omega)
      cases a' with
      | none => simp at hsa
      | some a =>
        cases g' with
        | none => simp at hsg
        | some gg =>
          refine ⟨State.mk a r' (Invariants.mk gg g.rows g.cols), ?_⟩
          rw [State.from_grid, hscan]
  · intro e he
    rw [State.from_grid] at he
    cases hscan : scanTiles g (gridPositions g.cols g.rows) none none [] with
    | error e' =>
      rw [hscan] at he
      have he2 : e' = e := by simpa using he
      subst he2
      rcases h3 e' hscan with h | h
      · exact Or.inr (Or.inl h)
      · exact Or.inr (Or.inr (Or.inr h))
    | ok res =>
      obtain ⟨a', g', r'⟩ := res
      rw [hscan] at he
      cases a' with
      | none =>
        obtain rfl : "no player" = e := by simpa using he
        exact Or.inl rfl
      | some a =>
        cases g' with
        | none =>
          obtain rfl : "no goal" = e := by simpa using he
          exact Or.inr (Or.inr (Or.inl rfl))
        | some gg => exact absurd he (by simp)

/-- Witness for claim C7's theorem: a 2 by 2 layout with one astronaut and
one goal is accepted. -/
theorem claim_C7_witness :
    ∃ s, State.from_grid ⟨2, 2, fun x y =>
        if x = 0 ∧ y = 0 then Tile.Astro
        else if x = 1 ∧ y = 1 then Tile.Goal else Tile.Empty⟩
      = Except.ok s :=
  (claim_C7 _).1.mpr ⟨by decide, by decide⟩

theorem reachN_zero {succs : State → List State} {start t : State} :
    ReachN succs start 0 t ↔ t = start := Iff.rfl

theorem reachN_succ {succs : State → List State} {start t : State} {n : Nat} :
    ReachN succs start (n + 1) t ↔
      ∃ u, ReachN succs start n u ∧ t ∈ succs u := Iff.rfl

theorem reachLe_mono {succs : State → List State} {start t : State}
    {m n : Nat} (h : m ≤ n) (hr : ReachLe succs start m t) :
    ReachLe succs start n t := by
  obtain ⟨k, hk, hr⟩ := hr
  exact ⟨k, by omega, hr⟩

theorem reachN_exists_distIs {succs : State → List State} {start : State} :
    ∀ k t, ReachN succs start k t → ∃ j, j ≤ k ∧ DistIs succs start j t := by
  intro k
  induction k using Nat.strong_induction_on with
  | _ k ih =>
    intro t hr
    by_cases hmin : ∀ j, j < k → ¬ ReachN succs start j t
    · exact ⟨k, le_refl k, hr, hmin⟩
    · push_neg at hmin
      obtain ⟨j, hj, hrj⟩ := hmin
      obtain ⟨i, hi, hd⟩ := ih j hj t hrj
      exact ⟨i, by omega, hd⟩

theorem distIs_unique {succs : State → List State} {start t : State}
    {m n : Nat} (hm : DistIs succs start m t) (hn : DistIs succs start n t) :
    m = n := by
  rcases Nat.lt_trichotomy m n with h | h | h
  · exact absurd hm.1 (hn.2 m h)
  · exact h
  · exact absurd hn.1 (hm.2 n h)

theorem distIs_step_down {succs : State → List State} {start g : State}
    {m : Nat} (h : DistIs succs start (m + 1) g) :
    ∃ u, DistIs succs start m u := by
  obtain ⟨u, hu, hg⟩ := h.1
  obtain ⟨j, hj, hd⟩ := reachN_exists_distIs m u hu
  rcases Nat.lt_or_ge j m with hlt | hge
  · exact absurd (reachN_succ.mpr ⟨u, hd.1, hg⟩) (h.2 (j + 1) (by omega))
  · obtain rfl : j = m := by omega
    exact ⟨u, hd⟩

theorem distIs_all_below {succs : State → List State} {start : State} :
    ∀ m g, DistIs succs start m g → ∀ j, j ≤ m →
      ∃ t, DistIs succs start j t := by
  intro m
  induction m with
  | zero =>
    intro g hg j hj
    obtain rfl : j = 0 := by omega
    exact ⟨g, hg⟩
  | succ m ih =>
    intro g hg j hj
    rcases Nat.lt_or_ge j (m + 1) with hlt | hge
    · obtain ⟨u, hu⟩ := distIs_step_down hg
      exact ih u hu j (by omega)
    · obtain rfl : j = m + 1 := by omega
      exact ⟨g, hg⟩

theorem rpath_getLast {succs : State → List State} {start : State} :
    ∀ p, RPath succs start p → p.getLast? = some start := by
  intro p
  induction p with
  | nil => intro h; exact absurd h (by rw [RPath]; exact fun h => h)
  | cons c rest ih =>
    intro h
    cases rest with
    | nil =>
      rw [RPath] at h
      subst h
      rfl
    | cons d rest2 =>
      rw [RPath] at h
      rw [List.getLast?_cons_cons]
      exact ih h.2

theorem rpath_head_reachN {succs : State → List State} {start : State} :
    ∀ rest c, RPath succs start (c :: rest) →
      ReachN succs start rest.length c := by
  intro rest
  induction rest with
  | nil =>
    intro c h
    rw [RPath] at h
    exact h
  | cons d rest2 ih =>
    intro c h
    rw [RPath] at h
    exact reachN_succ.mpr ⟨d, ih d h.2, h.1⟩

theorem reachN_exists_rpath {succs : State → List State} {start : State} :
    ∀ n t, ReachN succs start n t →
      ∃ p, RPath succs start (t :: p) ∧ p.length = n := by
  intro n
  induction n with
  | zero =>
    intro t h
    rw [reachN_zero] at h
    subst h
    exact ⟨[], by rw [RPath], rfl⟩
  | succ n ih =>
    intro t h
    obtain ⟨u, hu, ht⟩ := reachN_succ.mp h
    obtain ⟨p, hp, hlen⟩ := ih u hu
    exact ⟨u :: p, by rw [RPath]; exact ⟨ht, hp⟩, by simp [hlen]⟩

theorem rpath_chain {succs : State → List State} {start : State} :
    ∀ p, RPath succs start p →
      List.Chain' (fun a b => b ∈ succs a) p.reverse := by
  intro p
  induction p with
  | nil => intro h; exact absurd h (by rw [RPath]; exact fun h => h)
  | cons c rest ih =>
    intro h
    cases rest with
    | nil => simp
    | cons d rest2 =>
      rw [RPath] at h
      rw [List.reverse_cons, List.chain'_append]
      refine ⟨ih h.2, by simp, ?_⟩
      intro x hx y hy
      rw [List.getLast?_reverse] at hx
      simp only [List.head?_cons, Option.mem_def, Option.some.injEq] at hx hy
      subst hx
      subst hy
      exact h.1

theorem chain_rpath {succs : State → List State} {start : State} :
    ∀ p, p.getLast? = some start →
      List.Chain' (fun a b => b ∈ succs a) p.reverse →
      RPath succs start p := by
  intro p
  induction p with
  | nil => intro h; simp at h
  | cons c rest ih =>
    intro hlast hchain
    cases rest with
    | nil =>
      rw [RPath]
      simpa using hlast
    | cons d rest2 =>
      rw [List.reverse_cons, List.chain'_append] at hchain
      obtain ⟨h1, _, h3⟩ := hchain
      rw [RPath]
      constructor
      · refine h3 d ?_ c ?_
        · show (d :: rest2).reverse.getLast? = some d
          rw [List.getLast?_reverse]
          rfl
        · show [c].head? = some c
          rfl
      · exact ih (by simpa using hlast) h1

theorem addSuccs_spec : ∀ (l : List State) (seen : List State)
    (p : List State),
    ∃ hs : List State,
      (addSuccs seen p l).1 = hs.map (fun s => s :: p) ∧
      (addSuccs seen p l).2 = seen ++ hs ∧
      hs.Nodup ∧
      (∀ s, s ∈ hs → s ∈ l ∧ s ∉ seen) ∧
      (∀ s, s ∈ l → s ∈ seen ++ hs) := by
  intro l
  induction l with
  | nil =>
    intro seen p
    exact ⟨[], rfl, by simp [addSuccs], by simp, by simp, by simp⟩
  | cons s rest ih =>
    intro seen p
    rw [addSuccs]
    by_cases hmem : s ∈ seen
    · simp only [hmem, if_true]
      obtain ⟨hs, h1, h2, h3, h4, h5⟩ := ih seen p
      refine ⟨hs, h1, h2, h3, fun t ht => ⟨List.mem_cons_of_mem s (h4 t ht).1,
        (h4 t ht).2⟩, ?_⟩
      intro t ht
      rcases List.mem_cons.mp ht with rfl | ht'
      · exact List.mem_append.mpr (Or.inl hmem)
      · exact h5 t ht'
    · simp only [hmem, if_false]
      obtain ⟨hs, h1, h2, h3, h4, h5⟩ := ih (seen ++ [s]) p
      refine ⟨s :: hs, ?_, ?_, ?_, ?_, ?_⟩
      · simpa using h1
      · rw [h2, List.append_assoc]
        rfl
      · rw [List.nodup_cons]
        refine ⟨fun hc => ?_, h3⟩
        have := (h4 s hc).2
        simp at this
      · intro t ht
        rcases List.mem_cons.mp ht with rfl | ht'
        · exact ⟨List.mem_cons_self t rest, hmem⟩
        · obtain ⟨hr, hns⟩ := h4 t ht'
          refine ⟨List.mem_cons_of_mem s hr, fun hc => hns ?_⟩
          simp [hc]
      · intro t ht
        rcases List.mem_cons.mp ht with rfl | ht'
        · simp
        · have := h5 t ht'
          rw [List.append_assoc] at this
          simpa using this

theorem expandLevel_spec (succs : State → List State) :
    ∀ (F : List (List State)) (seen : List State),
    ∃ hs : List State,
      (expandLevel succs seen F).2 = seen ++ hs ∧
      hs.Nodup ∧
      (∀ s, s ∈ hs → s ∉ seen) ∧
      (expandLevel succs seen F).1.map List.head? = hs.map some ∧
      (∀ q, q ∈ (expandLevel succs seen F).1 →
        ∃ s c t, q = s :: c :: t ∧ (c :: t) ∈ F ∧ s ∈ succs c ∧ s ∉ seen) ∧
      (∀ c t, (c :: t) ∈ F → ∀ s, s ∈ succs c →
        s ∈ (expandLevel succs seen F).2) := by
  intro F
  induction F with
  | nil =>
    intro seen
    exact ⟨[], by simp [expandLevel], by simp, by simp, by simp [expandLevel],
      by simp [expandLevel], by simp⟩
  | cons p ps ih =>
    intro seen
    cases p with
    | nil =>
      obtain ⟨hs, h1, h2, h3, h4, h5, h6⟩ := ih seen
      have heq : expandLevel succs seen ([] :: ps) = expandLevel succs seen ps := by
        rw [expandLevel]
      rw [heq]
      refine ⟨hs, h1, h2, h3, h4, ?_, ?_⟩
      · intro q hq
        obtain ⟨s, c, t, hq1, hq2, hq3, hq4⟩ := h5 q hq
        exact ⟨s, c, t, hq1, List.mem_cons_of_mem _ hq2, hq3, hq4⟩
      · intro c t hct s hsc
        rcases List.mem_cons.mp hct with hbad | hct'
        · exact absurd hbad.symm (by simp)
        · exact h6 c t hct' s hsc
    | cons c tail =>
      obtain ⟨hs1, a1, a2, a3, a4, a5⟩ := addSuccs_spec (succs c) seen (c :: tail)
      obtain ⟨hs2, b1, b2, b3, b4, b5, b6⟩ :=
        ih (addSuccs seen (c :: tail) (succs c)).2
      have heq : expandLevel succs seen ((c :: tail) :: ps)
          = ((addSuccs seen (c :: tail) (succs c)).1
              ++ (expandLevel succs (addSuccs seen (c :: tail) (succs c)).2 ps).1,
            (expandLevel succs (addSuccs seen (c :: tail) (succs c)).2 ps).2) := by
        rw [expandLevel]
      rw [heq]
      refine ⟨hs1 ++ hs2, ?_, ?_, ?_, ?_, ?_, ?_⟩
      · dsimp only
        rw [b1, a2, List.append_assoc]
      · rw [List.nodup_append]
        refine ⟨a3, b2, ?_⟩
        intro x hx1 hx2
        have := b3 x hx2
        rw [a2] at this
        exact this (List.mem_append.mpr (Or.inr hx1))
      · intro s hsm
        rcases List.mem_append.mp hsm with hsl | hsr
        · exact (a4 s hsl).2
        · intro hc
          have := b3 s hsr
          rw [a2] at this
          exact this (List.mem_append.mpr (Or.inl hc))
      · dsimp only
        rw [List.map_append, List.map_append, a1, b4, List.map_map]
        rfl
      · intro q hq
        dsimp only at hq
        rcases List.mem_append.mp hq with hql | hqr
        · rw [a1] at hql
          obtain ⟨s, hsm, rfl⟩ := List.mem_map.mp hql
          exact ⟨s, c, tail, rfl, List.mem_cons_self _ _, (a4 s hsm).1,
            (a4 s hsm).2⟩
        · obtain ⟨s, c', t', hq1, hq2, hq3, hq4⟩ := b5 q hqr
          refine ⟨s, c', t', hq1, List.mem_cons_of_mem _ hq2, hq3, fun hc => ?_⟩
          apply hq4
          rw [a2]
          exact List.mem_append.mpr (Or.inl hc)
      · intro c' t' hct s hsc
        dsimp only
        rcases List.mem_cons.mp hct with heq2 | hct'
        · have hcc : c' = c := by
            have := congrArg List.head? heq2
            simpa using this
          subst hcc
          have hin : s ∈ (addSuccs seen (c' :: tail) (succs c')).2 := by
            rw [a2]
            exact a5 s hsc
          rw [b1]
          rw [a2] at hin ⊢
          exact List.mem_append.mpr (Or.inl hin)
        · exact b6 c' t' hct' s hsc

theorem heads_of_expand {succs : State → List State}
    {F : List (List State)} {seen hs : List State}
    (e4 : (expandLevel succs seen F).1.map List.head? = hs.map some)
    {t : State} (ht : t ∈ hs) :
    ∃ q ∈ (expandLevel succs seen F).1, q.head? = some t := by
  have : some t ∈ (expandLevel succs seen F).1.map List.head? := by
    rw [e4]
    exact List.mem_map_of_mem some ht
  obtain ⟨q, hq, hq2⟩ := List.mem_map.mp this
  exact ⟨q, hq, hq2⟩

theorem bfs_round {succs : State → List State} {start : State} {lvl : Nat}
    {frontier : List (List State)} {visited : List State}
    (hinv : BfsInv succs start lvl frontier visited) :
    BfsInv succs start (lvl + 1) (expandLevel succs visited frontier).1
      (expandLevel succs visited frontier).2 := by
  obtain ⟨hvis, hfront, hcomp⟩ := hinv
  obtain ⟨hs, e1, e2, e3, e4, e5, e6⟩ := expandLevel_spec succs frontier visited
  refine ⟨?_, ?_, ?_⟩
  · intro t
    constructor
    · intro hmem
      rw [e1] at hmem
      rcases List.mem_append.mp hmem with hv | hh
      · exact reachLe_mono (by omega) ((hvis t).mp hv)
      · obtain ⟨q, hq, hqh⟩ := heads_of_expand e4 hh
        obtain ⟨s, c, tail, rfl, hq2, hq3, _⟩ := e5 q hq
        obtain rfl : s = t := by simpa using hqh
        obtain ⟨c', t', hct, hd, _, _⟩ := hfront _ hq2
        have hc : c = c' := by
          have := congrArg List.head? hct
          simpa using this
        rw [← hc] at hd
        exact ⟨lvl + 1, le_refl _, reachN_succ.mpr ⟨c, hd.1, hq3⟩⟩
    · intro ⟨k, hk, hr⟩
      rcases Nat.lt_or_ge k (lvl + 1) with hlt | hge
      · have : t ∈ visited := (hvis t).mpr ⟨k, by omega, hr⟩
        rw [e1]
        exact List.mem_append.mpr (Or.inl this)
      · obtain rfl : k = lvl + 1 := by omega
        obtain ⟨u, hu, htu⟩ := reachN_succ.mp hr
        obtain ⟨j, hj, hdu⟩ := reachN_exists_distIs lvl u hu
        rcases Nat.lt_or_ge j lvl with hjlt | hjge
        · have : t ∈ visited := (hvis t).mpr
            ⟨j + 1, by omega, reachN_succ.mpr ⟨u, hdu.1, htu⟩⟩
          rw [e1]
          exact List.mem_append.mpr (Or.inl this)
        · obtain rfl : j = lvl := by omega
          obtain ⟨p, hp, hph⟩ := hcomp u hdu
          cases p with
          | nil => simp at hph
          | cons c tail =>
            have hcu : c = u := by simpa using hph
            exact e6 c tail hp t (by rw [hcu]; exact htu)
  · intro q hq
    obtain ⟨s, c, tail, rfl, hq2, hq3, hq4⟩ := e5 q hq
    obtain ⟨c', t', hct, hd, hrp, hlen⟩ := hfront _ hq2
    have hc : c = c' := by
      have := congrArg List.head? hct
      simpa using this
    rw [← hc] at hd
    refine ⟨s, c :: tail, rfl, ?_, ?_, ?_⟩
    · constructor
      · exact reachN_succ.mpr ⟨c, hd.1, hq3⟩
      · intro k hk hrk
        exact hq4 ((hvis s).mpr ⟨k, by omega, hrk⟩)
    · rw [RPath]
      exact ⟨hq3, hrp⟩
    · simpa using hlen
  · intro s hds
    obtain ⟨u, hu, hsu⟩ := reachN_succ.mp hds.1
    obtain ⟨j, hj, hdu⟩ := reachN_exists_distIs lvl u hu
    rcases Nat.lt_or_ge j lvl with hjlt | hjge
    · exact absurd (reachN_succ.mpr ⟨u, hdu.1, hsu⟩) (hds.2 (j + 1) (by omega))
    · obtain rfl : j = lvl := by omega
      obtain ⟨p, hp, hph⟩ := hcomp u hdu
      cases p with
      | nil => simp at hph
      | cons c tail =>
        have hcu : c = u := by simpa using hph
        have hmem : s ∈ (expandLevel succs visited frontier).2 :=
          e6 c tail hp s (by rw [hcu]; exact hsu)
        rw [e1] at hmem
        rcases List.mem_append.mp hmem with hv | hh
        · exact absurd ((hvis s).mp hv)
            (fun ⟨k, hk, hrk⟩ => hds.2 k (by omega) hrk)
        · exact heads_of_expand e4 hh

theorem bfsAux_sound {succs : State → List State} {goal : State → Bool}
    {start : State} :
    ∀ (fuel lvl : Nat) (frontier : List (List State)) (visited : List State),
    BfsInv succs start lvl frontier visited →
    (∀ j t, j < lvl → DistIs succs start j t → goal t = false) →
    ∀ q, bfsAux succs goal fuel frontier visited = some q →
    ∃ (m : Nat) (c : State) (p : List State),
      q = (c :: p).reverse ∧ RPath succs start (c :: p) ∧
      q.length = m + 1 ∧ DistIs succs start m c ∧ goal c = true ∧
      (∀ k t, ReachN succs start k t → goal t = true → m ≤ k) := by
  intro fuel
  induction fuel with
  | zero =>
    intro lvl frontier visited _ _ q h
    exact absurd h (by rw [bfsAux]; simp)
  | succ fuel ih =>
    intro lvl frontier visited hinv hprev q h
    rw [bfsAux] at h
    cases hfind : frontier.find? (fun p =>
        match p with
        | c :: _ => goal c
        | [] => false) with
    | some p =>
      simp only [hfind] at h
      obtain rfl : p.reverse = q := by simpa using h
      have hp : p ∈ frontier := List.mem_of_find?_eq_some hfind
      have hpred := List.find?_some hfind
      obtain ⟨c, rest, rfl, hd, hrp, hlen⟩ := hinv.2.1 p hp
      have hgc : goal c = true := by simpa using hpred
      refine ⟨lvl, c, rest, rfl, hrp, by simpa using hlen, hd, hgc, ?_⟩
      intro k t hrk hgt
      obtain ⟨j, hj, hdj⟩ := reachN_exists_distIs k t hrk
      rcases Nat.lt_or_ge j lvl with hjl | hjl
      · exact absurd hgt (by rw [hprev j t hjl hdj]; simp)
      · omega
    | none =>
      simp only [hfind] at h
      cases hempty : (expandLevel succs visited frontier).1.isEmpty with
      | true => rw [hempty] at h; simp at h
      | false =>
        rw [hempty] at h
        simp only [Bool.false_eq_true, if_false] at h
        have hprev2 : ∀ j t, j < lvl + 1 → DistIs succs start j t →
            goal t = false := by
          intro j t hj hdj
          rcases Nat.lt_or_ge j lvl with hjl | hjl
          · exact hprev j t hjl hdj
          · obtain rfl : j = lvl := by omega
            obtain ⟨p, hp, hph⟩ := hinv.2.2 t hdj
            have hnp := List.find?_eq_none.mp hfind p hp
            cases p with
            | nil => simp at hph
            | cons c rest =>
              have hct : c = t := by simpa using hph
              subst hct
              simpa using hnp
        exact ih (lvl + 1) _ _ (bfs_round hinv) hprev2 q h

theorem bfsAux_complete {succs : State → List State} {goal : State → Bool}
    {start : State} :
    ∀ (fuel lvl m : Nat) (g : State) (frontier : List (List State))
      (visited : List State),
    BfsInv succs start lvl frontier visited →
    lvl ≤ m → m + 1 ≤ fuel + lvl →
    DistIs succs start m g → goal g = true →
    (∀ j t, j < m → DistIs succs start j t → goal t = false) →
    ∃ q, bfsAux succs goal fuel frontier visited = some q := by
  intro fuel
  induction fuel with
  | zero =>
    intro lvl m g f v _ hlm hfuel _ _ _
    omega
  | succ fuel ih =>
    intro lvl m g frontier visited hinv hlm hfuel hdg hgg hmin
    cases hfind : frontier.find? (fun p =>
        match p with
        | c :: _ => goal c
        | [] => false) with
    | some p =>
      exact ⟨p.reverse, by rw [bfsAux]; simp only [hfind]⟩
    | none =>
      have hlvlm : lvl < m := by
        rcases Nat.lt_or_ge lvl m with hcase | hcase
        · exact hcase
        · exfalso
          obtain rfl : lvl = m := by omega
          obtain ⟨p, hp, hph⟩ := hinv.2.2 g hdg
          have hnp := List.find?_eq_none.mp hfind p hp
          cases p with
          | nil => simp at hph
          | cons c rest =>
            have hct : c = g := by simpa using hph
            subst hct
            simp [hgg] at hnp
      have hinv2 := bfs_round hinv
      have hempty : (expandLevel succs visited frontier).1.isEmpty = false := by
        obtain ⟨t0, hd0⟩ := distIs_all_below m g hdg (lvl + 1) (by omega)
        obtain ⟨p, hp, _⟩ := hinv2.2.2 t0 hd0
        cases hval : (expandLevel succs visited frontier).1 with
        | nil => exact absurd (hval ▸ hp) (by simp)
        | cons a rest => simp [hval]
      obtain ⟨q, hq⟩ := ih (lvl + 1) m g _ _ hinv2 (by omega) (by omega)
        hdg hgg hmin
      refine ⟨q, ?_⟩
      rw [bfsAux]
      simp only [hfind, hempty, Bool.false_eq_true, if_false]
      exact hq

theorem foldr_max_le (l : List Pos) (base : Nat) :
    base ≤ l.foldr (fun p acc => max (max p.x p.y + 1) acc) base ∧
    ∀ p ∈ l, max p.x p.y + 1
      ≤ l.foldr (fun p acc => max (max p.x p.y + 1) acc) base := by
  induction l with
  | nil => simp
  | cons q rest ih =>
    constructor
    · simp only [List.foldr_cons]
      exact le_trans ih.1 (le_max_right _ _)
    · intro p hp
      rcases List.mem_cons.mp hp with rfl | hp'
      · simp only [List.foldr_cons]
        exact le_max_left _ _
      · simp only [List.foldr_cons]
        exact le_trans (ih.2 p hp') (le_max_right _ _)

theorem coordBound_facts (s : State) :
    s.invariants.rows ≤ s.coordBound ∧ s.invariants.cols ≤ s.coordBound ∧
    s.astro.x < s.coordBound ∧ s.astro.y < s.coordBound ∧
    ∀ p ∈ s.robots, p.x < s.coordBound ∧ p.y < s.coordBound := by
  obtain ⟨h1, h2⟩ := foldr_max_le s.robots (max s.astro.x s.astro.y + 1)
  rw [State.coordBound]
  refine ⟨?_, ?_, ?_, ?_, ?_⟩
  · exact le_trans (le_max_left _ _) (le_max_left _ _)
  · exact le_trans (le_max_right _ _) (le_max_left _ _)
  · have := le_trans h1 (le_max_right (max s.invariants.rows s.invariants.cols) _)
    have hx : s.astro.x < max s.astro.x s.astro.y + 1 :=
      Nat.lt_succ_of_le (le_max_left _ _)
    omega
  · have := le_trans h1 (le_max_right (max s.invariants.rows s.invariants.cols) _)
    have hy : s.astro.y < max s.astro.x s.astro.y + 1 :=
      Nat.lt_succ_of_le (le_max_right _ _)
    omega
  · intro p hp
    have := le_trans (h2 p hp) (le_max_right (max s.invariants.rows s.invariants.cols) _)
    have hx : p.x < max p.x p.y + 1 := Nat.lt_succ_of_le (le_max_left _ _)
    have hy : p.y < max p.x p.y + 1 := Nat.lt_succ_of_le (le_max_right _ _)
    omega

theorem coordBound_pos (s : State) : 1 ≤ s.coordBound := by
  have := (coordBound_facts s).2.2.1
  omega

theorem inUniv_start (s : State) : InUniv s s := by
  obtain ⟨_, _, h3, h4, h5⟩ := coordBound_facts s
  exact ⟨rfl, rfl, h3, h4, h5⟩

theorem pos_of_bound {s t : State} (h : InUniv s t) (sel : Selection) :
    (t.pos_of sel).x < s.coordBound ∧ (t.pos_of sel).y < s.coordBound := by
  obtain ⟨_, _, h3, h4, h5⟩ := h
  cases sel with
  | Astro => exact ⟨h3, h4⟩
  | Robot n =>
    rw [State.pos_of, List.getD_eq_getElem?_getD]
    cases hn : t.robots[n]? with
    | none =>
      simp only [Option.getD_none]
      have := coordBound_pos s
      exact ⟨by omega, by omega⟩
    | some p =>
      simp only [Option.getD_some]
      exact h5 p (List.getElem?_mem hn)

theorem move_success_bound {s t : State} (h : InUniv s t) {pos P : Pos}
    {d : Direction} (hb : pos.x < s.coordBound ∧ pos.y < s.coordBound)
    (hm : t.move_toward pos d = MovementAttempt.Success P) :
    P.x < s.coordBound ∧ P.y < s.coordBound := by
  obtain ⟨i, next, h1, _, _⟩ := moveLoop_success hm
  have hmem : P ∈ t.positions_in_path pos d := List.getElem?_mem h1
  obtain ⟨hinv, _, _, _, _⟩ := h
  obtain ⟨hrows, hcols, _, _, _⟩ := coordBound_facts s
  cases d
  case Up =>
    obtain ⟨hx, hy⟩ := mem_path_up hmem
    constructor <;> omega
  case Down =>
    obtain ⟨hx, _, hy⟩ := mem_path_down hmem
    rw [hinv] at hy
    constructor <;> omega
  case Left =>
    obtain ⟨hy, hx⟩ := mem_path_left hmem
    constructor <;> omega
  case Right =>
    obtain ⟨hy, _, hx⟩ := mem_path_right hmem
    rw [hinv] at hx
    constructor <;> omega

theorem inUniv_succ {s t t' : State} (h : InUniv s t)
    (h' : t' ∈ t.all_successors) : InUniv s t' := by
  rw [State.all_successors, List.mem_flatMap] at h'
  obtain ⟨sel, _, hsel⟩ := h'
  rw [State.successor_of, List.mem_filterMap] at hsel
  obtain ⟨d, _, hd⟩ := hsel
  cases hm : t.move_toward (t.pos_of sel) d with
  | Failure => rw [hm] at hd; exact absurd hd (by simp)
  | Success P =>
    rw [hm] at hd
    obtain rfl : t.set_pos sel P = t' := by simpa using hd
    have hP := move_success_bound h (pos_of_bound h sel) hm
    obtain ⟨h1, h2, h3, h4, h5⟩ := h
    cases sel with
    | Astro => exact ⟨h1, h2, hP.1, hP.2, h5⟩
    | Robot n =>
      refine ⟨h1, ?_, h3, h4, ?_⟩
      · show (t.robots.set n P).length = s.robots.length
        rw [List.length_set]
        exact h2
      · intro p hp
        have hp' : p ∈ t.robots.set n P := hp
        rcases List.mem_or_eq_of_mem_set hp' with hmem | rfl
        · exact h5 p hmem
        · exact hP

theorem inUniv_reach {s : State} :
    ∀ k t, ReachN State.all_successors s k t → InUniv s t := by
  intro k
  induction k with
  | zero =>
    intro t h
    rw [reachN_zero] at h
    subst h
    exact inUniv_start _
  | succ k ih =>
    intro t h
    obtain ⟨u, hu, ht⟩ := reachN_succ.mp h
    exact inUniv_succ (ih u hu) ht

theorem encodePos_lt {B : Nat} {p : Pos} (hx : p.x < B) (hy : p.y < B) :
    encodePos B p < B * B := by
  rw [encodePos]
  calc p.x * B + p.y < p.x * B + B := by omega
    _ = (p.x + 1) * B := by ring
    _ ≤ B * B := Nat.mul_le_mul_right B (by omega)

theorem encodePos_inj {B : Nat} {p q : Pos} (hpx : p.x < B) (hpy : p.y < B)
    (hqx : q.x < B) (hqy : q.y < B) (h : encodePos B p = encodePos B q) :
    p = q := by
  rw [encodePos, encodePos] at h
  have hy : p.y = q.y := by
    have h1 : (p.x * B + p.y) % B = p.y := by
      rw [Nat.add_comm, Nat.add_mul_mod_self_right, Nat.mod_eq_of_lt hpy]
    have h2 : (q.x * B + q.y) % B = q.y := by
      rw [Nat.add_comm, Nat.add_mul_mod_self_right, Nat.mod_eq_of_lt hqy]
    rw [← h1, ← h2, h]
  have hx : p.x = q.x := by
    have hB : 0 < B := by omega
    have : p.x * B = q.x * B := by omega
    exact Nat.eq_of_mul_eq_mul_right hB this
  cases p; cases q
  simp_all

theorem encodeList_lt {B2 : Nat} :
    ∀ ds : List Nat, (∀ d ∈ ds, d < B2) →
      encodeList B2 ds < B2 ^ ds.length := by
  intro ds
  induction ds with
  | nil => intro _; simp [encodeList]
  | cons d rest ih =>
    intro hall
    rw [encodeList]
    have hd : d < B2 := hall d (by simp)
    have hr : encodeList B2 rest < B2 ^ rest.length :=
      ih (fun e he => hall e (by simp [he]))
    calc d + B2 * encodeList B2 rest
        < B2 + B2 * encodeList B2 rest := by omega
      _ = B2 * (encodeList B2 rest + 1) := by ring
      _ ≤ B2 * B2 ^ rest.length := Nat.mul_le_mul_left B2 (by omega)
      _ = B2 ^ (rest.length + 1) := by ring
      _ = B2 ^ (d :: rest).length := by simp

theorem encodeList_inj {B2 : Nat} :
    ∀ ds es : List Nat, ds.length = es.length →
      (∀ d ∈ ds, d < B2) → (∀ e ∈ es, e < B2) →
      encodeList B2 ds = encodeList B2 es → ds = es := by
  intro ds
  induction ds with
  | nil =>
    intro es hlen _ _ _
    cases es with
    | nil => rfl
    | cons e es => simp at hlen
  | cons d rest ih =>
    intro es hlen hd he henc
    cases es with
    | nil => simp at hlen
    | cons e rest2 =>
      rw [encodeList, encodeList] at henc
      have hdB : d < B2 := hd d (by simp)
      have heB : e < B2 := he e (by simp)
      have hdd : d = e := by
        have h1 : (d + B2 * encodeList B2 rest) % B2 = d := by
          rw [Nat.add_mul_mod_self_left, Nat.mod_eq_of_lt hdB]
        have h2 : (e + B2 * encodeList B2 rest2) % B2 = e := by
          rw [Nat.add_mul_mod_self_left, Nat.mod_eq_of_lt heB]
        rw [← h1, ← h2, henc]
      subst hdd
      have hrec : encodeList B2 rest = encodeList B2 rest2 := by
        have hB : 0 < B2 := by omega
        have : B2 * encodeList B2 rest = B2 * encodeList B2 rest2 := by omega
        exact Nat.eq_of_mul_eq_mul_left hB this
      have := ih rest2 (by simpa using hlen)
        (fun x hx => hd x (by simp [hx])) (fun x hx => he x (by simp [hx])) hrec
      rw [this]

theorem encodeState_lt {s t : State} (h : InUniv s t) :
    encodeState s t < s.numStatesBound := by
  rw [encodeState, State.numStatesBound]
  have hB := coordBound_pos s
  have hlen : ((t.astro :: t.robots).map (encodePos s.coordBound)).length
      = s.robots.length + 1 := by
    simp [h.2.1]
  rw [← hlen]
  apply encodeList_lt
  intro d hd
  obtain ⟨p, hp, rfl⟩ := List.mem_map.mp hd
  rcases List.mem_cons.mp hp with rfl | hp'
  · exact encodePos_lt h.2.2.1 h.2.2.2.1
  · exact encodePos_lt (h.2.2.2.2 p hp').1 (h.2.2.2.2 p hp').2

theorem map_encodePos_inj {B : Nat} :
    ∀ l1 l2 : List Pos,
      (∀ p ∈ l1, p.x < B ∧ p.y < B) → (∀ p ∈ l2, p.x < B ∧ p.y < B) →
      l1.map (encodePos B) = l2.map (encodePos B) → l1 = l2 := by
  intro l1
  induction l1 with
  | nil =>
    intro l2 _ _ hmap
    cases l2 with
    | nil => rfl
    | cons q l2 => simp at hmap
  | cons p l1 ih =>
    intro l2 hb1 hb2 hmap
    cases l2 with
    | nil => simp at hmap
    | cons q l2 =>
      simp only [List.map_cons, List.cons.injEq] at hmap
      have hp := hb1 p (by simp)
      have hq := hb2 q (by simp)
      have hpq : p = q := encodePos_inj hp.1 hp.2 hq.1 hq.2 hmap.1
      rw [hpq, ih l2 (fun x hx => hb1 x (by simp [hx]))
        (fun x hx => hb2 x (by simp [hx])) hmap.2]

theorem encodeState_inj {s t u : State} (ht : InUniv s t) (hu : InUniv s u)
    (h : encodeState s t = encodeState s u) : t = u := by
  rw [encodeState, encodeState] at h
  have hlen : ((t.astro :: t.robots).map (encodePos s.coordBound)).length
      = ((u.astro :: u.robots).map (encodePos s.coordBound)).length := by
    simp [ht.2.1, hu.2.1]
  have hdig : ∀ (w : State), InUniv s w →
      ∀ d ∈ (w.astro :: w.robots).map (encodePos s.coordBound),
        d < s.coordBound * s.coordBound := by
    intro w hw d hd
    obtain ⟨p, hp, rfl⟩ := List.mem_map.mp hd
    rcases List.mem_cons.mp hp with rfl | hp'
    · exact encodePos_lt hw.2.2.1 hw.2.2.2.1
    · exact encodePos_lt (hw.2.2.2.2 p hp').1 (hw.2.2.2.2 p hp').2
  have hmap := encodeList_inj _ _ hlen (hdig t ht) (hdig u hu) h
  have hbound : ∀ (w : State), InUniv s w →
      ∀ p ∈ w.astro :: w.robots, p.x < s.coordBound ∧ p.y < s.coordBound := by
    intro w hw p hp
    rcases List.mem_cons.mp hp with rfl | hp'
    · exact ⟨hw.2.2.1, hw.2.2.2.1⟩
    · exact hw.2.2.2.2 p hp'
  have hlists := map_encodePos_inj _ _ (hbound t ht) (hbound u hu) hmap
  have hastro : t.astro = u.astro := by
    have := congrArg List.head? hlists
    simpa using this
  have hrobots : t.robots = u.robots := by
    have := congrArg List.tail hlists
    simpa using this
  exact (state_eq_iff t u).mpr ⟨hastro, hrobots, by rw [ht.1, hu.1]⟩

theorem nodup_lt_bound (l : List Nat) (N : Nat) (h1 : l.Nodup)
    (h2 : ∀ x ∈ l, x < N) : l.length ≤ N := by
  have hsub : l.toFinset ⊆ Finset.range N := by
    intro x hx
    rw [List.mem_toFinset] at hx
    rw [Finset.mem_range]
    exact h2 x hx
  have := Finset.card_le_card hsub
  rw [Finset.card_range, List.toFinset_card_of_nodup h1] at this
  exact this

theorem distIs_lt_bound {s g : State} {m : Nat}
    (h : DistIs State.all_successors s m g) : m < s.numStatesBound := by
  have hex : ∀ jh : {j // j ∈ List.range (m + 1)},
      ∃ t, DistIs State.all_successors s jh.val t := by
    intro ⟨j, hj⟩
    exact distIs_all_below m g h j (by
      have := List.mem_range.mp hj
      omega)
  classical
  let pick : {j // j ∈ List.range (m + 1)} → State :=
    fun jh => Classical.choose (hex jh)
  have hpick : ∀ jh, DistIs State.all_successors s jh.val (pick jh) :=
    fun jh => Classical.choose_spec (hex jh)
  let L : List Nat :=
    (List.range (m + 1)).attach.map (fun jh => encodeState s (pick jh))
  have hnodup : L.Nodup := by
    apply List.Nodup.map_on
    · intro x hx y hy henc
      have hux : InUniv s (pick x) := inUniv_reach _ _ (hpick x).1
      have huy : InUniv s (pick y) := inUniv_reach _ _ (hpick y).1
      have heq : pick x = pick y := encodeState_inj hux huy henc
      have := distIs_unique (hpick x) (heq ▸ hpick y)
      exact Subtype.ext this
    · exact List.nodup_attach.mpr (List.nodup_range _)
  have hlt : ∀ x ∈ L, x < s.numStatesBound := by
    intro x hx
    obtain ⟨jh, _, rfl⟩ := List.mem_map.mp hx
    exact encodeState_lt (inUniv_reach _ _ (hpick jh).1)
  have hlen : L.length = m + 1 := by
    simp [L]
  have := nodup_lt_bound L s.numStatesBound hnodup hlt
  omega

theorem bfsInv_init (succs : State → List State) (start : State) :
    BfsInv succs start 0 [[start]] [start] := by
  refine ⟨?_, ?_, ?_⟩
  · intro t
    constructor
    · intro hm
      obtain rfl : t = start := by simpa using hm
      exact ⟨0, le_refl 0, rfl⟩
    · intro ⟨k, hk, hr⟩
      obtain rfl : k = 0 := by omega
      rw [reachN_zero] at hr
      simp [hr]
  · intro p hp
    obtain rfl : p = [start] := by simpa using hp
    exact ⟨start, [], rfl, ⟨rfl, fun k hk => absurd hk (by omega)⟩,
      by rw [RPath], rfl⟩
  · intro t hdt
    have : t = start := hdt.1
    subst this
    exact ⟨[t], by simp, rfl⟩

theorem exists_min_goal {succs : State → List State} {goal : State → Bool}
    {start : State}
    (h : ∃ k g, ReachN succs start k g ∧ goal g = true) :
    ∃ m g, DistIs succs start m g ∧ goal g = true ∧
      ∀ j t, j < m → DistIs succs start j t → goal t = false := by
  obtain ⟨k, g, hr, hg⟩ := h
  obtain ⟨j0, hj0, hd0⟩ := reachN_exists_distIs k g hr
  clear hr hj0
  induction j0 using Nat.strong_induction_on generalizing g with
  | _ j0 ih =>
    by_cases hmin : ∀ j t, j < j0 → DistIs succs start j t → goal t = false
    · exact ⟨j0, g, hd0, hg, hmin⟩
    · push_neg at hmin
      obtain ⟨j, t, hj, hdj, hgt⟩ := hmin
      exact ih j hj t (by
        cases hgoal : goal t with
        | true => rfl
        | false => exact absurd hgoal hgt) hdj

theorem valid_reach {s : State} {r : List State} (hr : ValidSolution s r) :
    ∃ g, r.getLast? = some g ∧ g.is_at_goal = true ∧
      ReachN State.all_successors s (r.length - 1) g := by
  obtain ⟨hrh, hrc, g, hrl, hrg⟩ := hr
  have hrev : RPath State.all_successors s r.reverse :=
    chain_rpath r.reverse (by rw [List.getLast?_reverse]; exact hrh)
      (by rw [List.reverse_reverse]; exact hrc)
  cases hshape : r.reverse with
  | nil =>
    rw [hshape] at hrev
    exact absurd hrev (by rw [RPath]; exact fun hc => hc)
  | cons c2 tail =>
    have hc2 : c2 = g := by
      have h1 := List.head?_reverse r
      rw [hshape] at h1
      simp only [List.head?_cons] at h1
      rw [hrl] at h1
      simpa using h1
    rw [hshape] at hrev
    have hreach := rpath_head_reachN tail c2 hrev
    rw [hc2] at hreach
    have hlen : tail.length = r.length - 1 := by
      have : r.reverse.length = r.length := List.length_reverse r
      rw [hshape] at this
      simp at this
      omega
    exact ⟨g, hrl, hrg, by rw [← hlen]; exact hreach⟩

theorem valid_iff_reach {s : State} :
    (∃ q, ValidSolution s q) ↔
      ∃ k g, ReachN State.all_successors s k g ∧ g.is_at_goal = true := by
  constructor
  · intro ⟨r, hr⟩
    obtain ⟨g, _, hg, hreach⟩ := valid_reach hr
    exact ⟨r.length - 1, g, hreach, hg⟩
  · intro ⟨k, g, hr, hg⟩
    obtain ⟨p, hrp, hplen⟩ := reachN_exists_rpath k g hr
    refine ⟨(g :: p).reverse, ?_, rpath_chain _ hrp, g, ?_, hg⟩
    · rw [List.head?_reverse]
      exact rpath_getLast _ hrp
    · rw [List.getLast?_reverse]
      rfl

theorem solve_some_spec {s : State} {q : List State}
    (h : s.solve_from_here = some q) :
    ValidSolution s q ∧ ∀ r, ValidSolution s r → q.length ≤ r.length := by
  rw [State.solve_from_here, bfs] at h
  obtain ⟨m, c, p, rfl, hrp, hlen, hd, hg, hmin⟩ :=
    bfsAux_sound (s.numStatesBound + 1) 0 [[s]] [s]
      (bfsInv_init State.all_successors s)
      (fun j t hj _ => absurd hj (by omega)) _ h
  constructor
  · refine ⟨?_, rpath_chain _ hrp, c, ?_, hg⟩
    · rw [List.head?_reverse]
      exact rpath_getLast _ hrp
    · rw [List.getLast?_reverse]
      rfl
  · intro r hr
    obtain ⟨g, hrl, hrg, hreach⟩ := valid_reach hr
    have hm := hmin (r.length - 1) g hreach hrg
    have hrne : r ≠ [] := by
      intro hc
      rw [hc] at hrl
      simp at hrl
    have : 1 ≤ r.length := by
      cases r with
      | nil => exact absurd rfl hrne
      | cons a t => simp
    omega

theorem solve_none_iff {s : State} :
    s.solve_from_here = none ↔ ¬ ∃ q, ValidSolution s q := by
  constructor
  · intro hnone hex
    obtain ⟨k, g, hr, hg⟩ := valid_iff_reach.mp hex
    obtain ⟨m, g2, hd, hg2, hmin⟩ := exists_min_goal ⟨k, g, hr, hg⟩
    have hmN : m < s.numStatesBound := distIs_lt_bound hd
    obtain ⟨q, hq⟩ := bfsAux_complete (s.numStatesBound + 1) 0 m g2 [[s]] [s]
      (bfsInv_init State.all_successors s) (by omega) (by omega) hd hg2 hmin
    rw [State.solve_from_here, bfs] at hnone
    rw [hq] at hnone
    exact absurd hnone (by simp)
  · intro hnex
    cases hsol : s.solve_from_here with
    | none => rfl
    | some q =>
      obtain ⟨hvalid, _⟩ := solve_some_spec hsol
      exact absurd ⟨q, hvalid⟩ hnex

theorem solve_at_goal {s : State} (h : s.is_at_goal = true) :
    s.solve_from_here = some [s] := by
  rw [State.solve_from_here, bfs, bfsAux]
  rw [List.find?_cons_of_pos _ (by simpa using h)]
  rfl

/-- Claim C3: solve_from_here returns a shortest solution path (fewest
single-actor moves) from the state to some goal-satisfying state, inclusive
of the start and end states; it returns none exactly when no goal-satisfying
state is reachable by slides; and on a state already at the goal it returns
the one-element path holding that state. -/
theorem claim_C3 (s : State) :
    (∀ q, s.solve_from_here = some q →
      ValidSolution s q ∧ ∀ r, ValidSolution s r → q.length ≤ r.length) ∧
    (s.solve_from_here = none ↔ ¬ ∃ q, ValidSolution s q) ∧
    (s.is_at_goal = true → s.solve_from_here = some [s]) :=
  ⟨fun _ hq => solve_some_spec hq, solve_none_iff, solve_at_goal⟩

/-- Witness for claim C3's theorem: a 1 by 1 board whose astronaut starts
on the goal is solved by the one-element path. -/
theorem claim_C3_witness :
    State.solve_from_here ⟨⟨0, 0⟩, [], ⟨⟨0, 0⟩, 1, 1⟩⟩
      = some [⟨⟨0, 0⟩, [], ⟨⟨0, 0⟩, 1, 1⟩⟩] :=
  (claim_C3 _).2.2 (by decide)

/-- Claim C2 (amended): on a 4 by 4 board with the astronaut at (0,0), the
goal at (3,0) and no robots, solve_from_here returns none: with no robot to
block it, the astronaut's unobstructed slides all fail, so no move exists
and the goal is unreachable. -/
theorem claim_C2 :
    State.solve_from_here ⟨⟨0, 0⟩, [], ⟨⟨3, 0⟩, 4, 4⟩⟩ = none := by
  decide

/-- Counterexample to claim C2 as stated: on that board solve_from_here
does not return a 2-state path; it returns none. -/
theorem claim_C2_counterexample :
    ¬ ∃ q, State.solve_from_here ⟨⟨0, 0⟩, [], ⟨⟨3, 0⟩, 4, 4⟩⟩ = some q ∧
      q.length = 2 := by
  intro ⟨q, hq, _⟩
  rw [show State.solve_from_here ⟨⟨0, 0⟩, [], ⟨⟨3, 0⟩, 4, 4⟩⟩ = none by
    decide] at hq
  exact absurd hq (by simp)

/-- Claim C9: in a state with no robots, sliding the astronaut fails in all
four directions, the state has no successors at all, and it is solvable
exactly when the astronaut already starts on the goal. -/
theorem claim_C9 (s : State) (h : s.robots = []) :
    (∀ d, s.move_toward s.astro d = MovementAttempt.Failure) ∧
    s.all_successors = [] ∧
    (s.is_at_goal = true → s.solve_from_here = some [s]) ∧
    (s.is_at_goal = false → s.solve_from_here = none) := by
  have hmove : ∀ d, s.move_toward s.astro d = MovementAttempt.Failure := by
    intro d
    apply moveLoop_failure_of_stoppable
    intro p hp
    have hne : ¬ s.astro = p := by
      cases d
      case Up =>
        obtain ⟨_, hy⟩ := mem_path_up hp
        intro he
        rw [he] at hy
        omega
      case Down =>
        obtain ⟨_, hy, _⟩ := mem_path_down hp
        intro he
        rw [he] at hy
        omega
      case Left =>
        obtain ⟨_, hx⟩ := mem_path_left hp
        intro he
        rw [he] at hx
        omega
      case Right =>
        obtain ⟨_, hx, _⟩ := mem_path_right hp
        intro he
        rw [he] at hx
        omega
    rw [State.tile_at]
    simp only [hne, if_false, h, List.not_mem_nil, if_false]
    by_cases hg : s.invariants.goal = p <;> simp [hg]
  have hsucc : s.all_successors = [] := by
    rw [State.all_successors, h]
    simp only [List.length_nil, List.range_zero, List.map_nil]
    show (Selection.Astro :: []).flatMap s.successor_of = []
    simp only [List.flatMap_cons, List.flatMap_nil, List.append_nil]
    rw [State.successor_of]
    have : s.pos_of Selection.Astro = s.astro := rfl
    rw [this]
    simp [hmove]
  refine ⟨hmove, hsucc, solve_at_goal, ?_⟩
  intro hgoal
  rw [solve_none_iff]
  intro hex
  obtain ⟨k, g, hr, hg⟩ := valid_iff_reach.mp hex
  have hgs : g = s := by
    clear hg
    induction k generalizing g with
    | zero => exact hr
    | succ k ih =>
      obtain ⟨u, hu, hgu⟩ := reachN_succ.mp hr
      rw [ih u hu, hsucc] at hgu
      exact absurd hgu (by simp)
  rw [hgs] at hg
  rw [hg] at hgoal
  exact absurd hgoal (by simp)

/-- Witness for claim C9's theorem: a robot-free 3 by 3 state away from the
goal is unsolvable. -/
theorem claim_C9_witness :
    State.solve_from_here ⟨⟨0, 0⟩, [], ⟨⟨2, 0⟩, 3, 3⟩⟩ = none :=
  (claim_C9 _ rfl).2.2.2 (by decide)

/-- Claim C4: every state returned successfully by the generator pipeline is
itself solvable with a solution of at least 5 states, and whenever none of
the 5000 sampled candidates admits a solution of at least 5 states the
generator returns the explicit generation-failure error rather than any
state. The WyRand sampling is abstracted as the candidate stream. -/
theorem claim_C4 (candidates : Nat → State) :
    (∀ st, new_randomized_from candidates = Except.ok st →
      ∃ sol, st.solve_from_here = some sol ∧ 5 ≤ sol.length) ∧
    ((∀ i, i < 5000 → ∀ sol, (candidates i).solve_from_here = some sol →
        sol.length < 5) →
      new_randomized_from candidates
        = Except.error "all generated positions failed validation") := by
  constructor
  · intro st hok
    rw [new_randomized_from] at hok
    cases hfind : (List.range 5000).findSome? (fun i =>
        match (candidates i).solve_from_here with
        | some solution => if 5 ≤ solution.length then solution.head? else none
        | none => none) with
    | none => rw [hfind] at hok; exact absurd hok (by simp)
    | some st2 =>
      rw [hfind] at hok
      obtain rfl : st2 = st := by simpa using hok
      obtain ⟨i, _, hi⟩ := List.exists_of_findSome?_eq_some hfind
      cases hsol : (candidates i).solve_from_here with
      | none => rw [hsol] at hi; exact absurd hi (by simp)
      | some sol =>
        rw [hsol] at hi
        have hi2 : (if 5 ≤ sol.length then sol.head? else none)
            = some st2 := hi
        by_cases hlen : 5 ≤ sol.length
        · rw [if_pos hlen] at hi2
          obtain ⟨hvalid, -⟩ := solve_some_spec hsol
          obtain ⟨hhead, -, -⟩ := hvalid
          have hst : st2 = candidates i := by
            rw [hi2] at hhead
            simpa using hhead
          rw [hst, hsol]
          exact ⟨sol, rfl, hlen⟩
        · rw [if_neg hlen] at hi2
          exact absurd hi2 (by simp)
  · intro hall
    rw [new_randomized_from]
    have hnone : (List.range 5000).findSome? (fun i =>
        match (candidates i).solve_from_here with
        | some solution => if 5 ≤ solution.length then solution.head? else none
        | none => none) = none := by
      rw [List.findSome?_eq_none_iff]
      intro i hi
      cases hsol : (candidates i).solve_from_here with
      | none => rfl
      | some sol =>
        have hlt := hall i (List.mem_range.mp hi) sol hsol
        show (if 5 ≤ sol.length then sol.head? else none) = none
        rw [if_neg (by omega : ¬ 5 ≤ sol.length)]
    rw [hnone]

/-- Witness for claim C4's theorem: with every candidate equal to an
unsolvable state, the generator fails with the validation error. -/
theorem claim_C4_witness :
    new_randomized_from (fun _ => ⟨⟨0, 0⟩, [], ⟨⟨3, 0⟩, 4, 4⟩⟩)
      = Except.error "all generated positions failed validation" :=
  (claim_C4 _).2 (by
    intro i _ sol hsol
    rw [show State.solve_from_here ⟨⟨0, 0⟩, [], ⟨⟨3, 0⟩, 4, 4⟩⟩ = none by
      decide] at hsol
    exact absurd hsol (by simp))
